import Mathlib

/-!
# Verification of the macup archive engine

Shallow embedding of the `macup` backup/restore core (Go) and proofs about it.

The Go sources work on POSIX path strings through `path/filepath`
(`Clean`, `Join`, `Base`, `Dir`, `Rel`, `Abs`), on a tar+pgzip archive
stream, and on the local filesystem.  We embed:

* the Unix (`/`-separated) semantics of the `path/filepath` functions used
  by the code, implemented over `List Char`;
* SHA-256 (used by `generateFilename`), implemented over byte lists;
* the repository's own functions (`normalizePath`, `generateFilename`,
  `extractArchive`'s per-header loop, `Location.scan`,
  `writeEntryNoMessage`, `ArchiveWriter.Close`, `newArchiveWriter`),
  with the filesystem made explicit as a finite map from cleaned absolute
  paths (component lists) to nodes.

The filesystem model is lexical: path keys are the cleaned absolute paths
an operation names; symbolic links are stored as inert leaf nodes and are
not followed when another operation later names a path through them
(unchecked link targets are an explicitly open question in the design
notes of the specification, §9).  Where the walk (`filepath.WalkDir`)
sorts directory entries, trees in concrete statements list children in
sorted order.
-/

set_option autoImplicit false
set_option maxRecDepth 8192

/-! ## Unix `path/filepath` semantics over `List Char` -/

/-- Split a character list on `'/'`.  `splitSlash "" = [[]]`,
`splitSlash "/a" = [[], ['a']]`, mirroring the component view that
`path.Clean` iterates over. -/
def splitSlash : List Char → List (List Char)
  | [] => [[]]
  | c :: rest =>
    if c = '/' then [] :: splitSlash rest
    else
      match splitSlash rest with
      | [] => [[c]]
      | g :: gs => (c :: g) :: gs

/-- The component stack built by `path.Clean`'s scan: empty and `"."`
components are dropped, `".."` pops a previous component (or is kept at
the front of a relative path, or dropped at the root of an absolute
path), anything else is pushed.  The stack is returned in reverse
order. -/
def cleanStack (abs : Bool) : List (List Char) → List (List Char) → List (List Char)
  | [], acc => acc
  | c :: rest, acc =>
    if c = [] ∨ c = ['.'] then cleanStack abs rest acc
    else if c = ['.', '.'] then
      match acc with
      | [] => if abs then cleanStack abs rest [] else cleanStack abs rest [['.', '.']]
      | t :: acc' =>
        if t = ['.', '.'] then cleanStack abs rest (['.', '.'] :: t :: acc')
        else cleanStack abs rest acc'
    else cleanStack abs rest (c :: acc)

/-- Whether a path is absolute (`filepath.IsAbs` on Unix). -/
def isAbsL : List Char → Bool
  | [] => false
  | c :: _ => c = '/'

/-- Interleave components with `'/'` (inverse of `splitSlash` on
slash-free nonempty components). -/
def joinComps : List (List Char) → List Char
  | [] => []
  | [c] => c
  | c :: c' :: cs => c ++ '/' :: joinComps (c' :: cs)

/-- The resolved component list of a path: `Clean` without the final
string rendering. -/
def pathComps (p : List Char) : List (List Char) :=
  (cleanStack (isAbsL p) (splitSlash p) []).reverse

/-- Render an absolute path from its components (`"/"` when empty). -/
def absString (cs : List (List Char)) : List Char :=
  '/' :: joinComps cs

/-- Go `path.Clean` (equals `filepath.Clean` on Unix). -/
def cleanL (p : List Char) : List Char :=
  if isAbsL p then absString (pathComps p)
  else
    match pathComps p with
    | [] => ['.']
    | c :: cs => joinComps (c :: cs)

/-- Go `filepath.Join` restricted to two elements, as used by the code:
empty elements are skipped and the result is cleaned; all-empty input
yields the empty string. -/
def goJoinL (a b : List Char) : List Char :=
  if a = [] then (if b = [] then [] else cleanL b)
  else if b = [] then cleanL a
  else cleanL (a ++ '/' :: b)

/-- Drop trailing `'/'` characters. -/
def dropTrailingSlashes (p : List Char) : List Char :=
  (p.reverse.dropWhile (fun c => c = '/')).reverse

/-- Go `filepath.Base` on Unix. -/
def baseL (p : List Char) : List Char :=
  if p = [] then ['.']
  else
    let q := dropTrailingSlashes p
    if q = [] then ['/']
    else (q.reverse.takeWhile (fun c => c ≠ '/')).reverse

/-- Everything up to and including the final `'/'` (empty when there is
no slash): the unsanitized directory part used by `filepath.Dir`. -/
def upToLastSlash (p : List Char) : List Char :=
  (p.reverse.dropWhile (fun c => c ≠ '/')).reverse

/-- Go `filepath.Dir` on Unix: the cleaned directory portion. -/
def dirL (p : List Char) : List Char :=
  cleanL (upToLastSlash p)

/-- String-level wrappers used by the embedded repository functions. -/
def clean (s : String) : String := ⟨cleanL s.data⟩

def goJoin (a b : String) : String := ⟨goJoinL a.data b.data⟩

def goBase (s : String) : String := ⟨baseL s.data⟩

def goDir (s : String) : String := ⟨dirL s.data⟩

def goIsAbs (s : String) : Bool := isAbsL s.data

/-- Go `strings.HasPrefix`. -/
def strHasPrefix (s pre : String) : Bool := pre.data.isPrefixOf s.data

/-! ## SHA-256 (crypto/sha256) over byte lists

`generateFilename` hashes the UTF-8 bytes of the path with SHA-256 and
hex-encodes the digest.  Words are `Nat`s reduced mod `2 ^ 32`. -/

def w32 : Nat := 4294967296

def rotr32 (k n : Nat) : Nat :=
  Nat.lor (n >>> k) ((n <<< (32 - k)) % w32)

def shaSig0 (n : Nat) : Nat := Nat.xor (rotr32 7 n) (Nat.xor (rotr32 18 n) (n >>> 3))

def shaSig1 (n : Nat) : Nat := Nat.xor (rotr32 17 n) (Nat.xor (rotr32 19 n) (n >>> 10))

def shaBig0 (n : Nat) : Nat := Nat.xor (rotr32 2 n) (Nat.xor (rotr32 13 n) (rotr32 22 n))

def shaBig1 (n : Nat) : Nat := Nat.xor (rotr32 6 n) (Nat.xor (rotr32 11 n) (rotr32 25 n))

def shaCh (e f g : Nat) : Nat :=
  Nat.xor (Nat.land e f) (Nat.land (Nat.xor e 4294967295) g)

def shaMaj (a b c : Nat) : Nat :=
  Nat.xor (Nat.land a b) (Nat.xor (Nat.land a c) (Nat.land b c))

/-- The sixty-four SHA-256 round constants (the first 32 bits of the
fractional parts of the cube roots of the first 64 primes), written in
decimal. -/
def shaK : List Nat :=
  [1116352408, 1899447441, 3049323471, 3921009573, 961987163, 1508970993,
   2453635748, 2870763221, 3624381080, 310598401, 607225278, 1426881987,
   1925078388, 2162078206, 2614888103, 3248222580, 3835390401, 4022224774,
   264347078, 604807628, 770255983, 1249150122, 1555081692, 1996064986,
   2554220882, 2821834349, 2952996808, 3210313671, 3336571891, 3584528711,
   113926993, 338241895, 666307205, 773529912, 1294757372, 1396182291,
   1695183700, 1986661051, 2177026350, 2456956037, 2730485921, 2820302411,
   3259730800, 3345764771, 3516065817, 3600352804, 4094571909, 275423344,
   430227734, 506948616, 659060556, 883997877, 958139571, 1322822218,
   1537002063, 1747873779, 1955562222, 2024104815, 2227730452, 2361852424,
   2428436474, 2756734187, 3204031479, 3329325298]

/-- Extend the 16-word block to the 64-word message schedule.  `acc`
holds the schedule built so far, most recent word first. -/
def shaExtend : Nat → List Nat → List Nat
  | 0, acc => acc.reverse
  | k + 1, acc =>
    let w2 := acc.getD 1 0
    let w7 := acc.getD 6 0
    let w15 := acc.getD 14 0
    let w16 := acc.getD 15 0
    shaExtend k (((shaSig1 w2 + w7 + shaSig0 w15 + w16) % w32) :: acc)

/-- One compression round. -/
def shaRound (st : List Nat) (kw : Nat × Nat) : List Nat :=
  match st with
  | [a, b, c, d, e, f, g, h] =>
    let t1 := (h + shaBig1 e + shaCh e f g + kw.1 + kw.2) % w32
    let t2 := (shaBig0 a + shaMaj a b c) % w32
    [(t1 + t2) % w32, a, b, c, (d + t1) % w32, e, f, g]
  | st => st

/-- Compress one 16-word block into the running hash state. -/
def shaBlock (st : List Nat) (block : List Nat) : List Nat :=
  let sched := shaExtend 48 block.reverse
  let fin := (sched.zip shaK).foldl shaRound st
  (st.zip fin).map (fun p => (p.1 + p.2) % w32)

/-- Big-endian bytes → 32-bit words (4 bytes each). -/
def bytesToWords : List Nat → List Nat
  | b0 :: b1 :: b2 :: b3 :: rest =>
    (((b0 * 256 + b1) * 256 + b2) * 256 + b3) :: bytesToWords rest
  | _ => []

/-- Split a word stream into 16-word (512-bit) blocks. -/
def wordBlocks : List Nat → List (List Nat)
  | w0 :: w1 :: w2 :: w3 :: w4 :: w5 :: w6 :: w7 ::
    w8 :: w9 :: w10 :: w11 :: w12 :: w13 :: w14 :: w15 :: rest =>
    [w0, w1, w2, w3, w4, w5, w6, w7, w8, w9, w10, w11, w12, w13, w14, w15]
      :: wordBlocks rest
  | _ => []

/-- Split the padded byte stream into 16-word blocks. -/
def shaBlocks (bs : List Nat) : List (List Nat) :=
  wordBlocks (bytesToWords bs)

/-- Big-endian byte expansion of a number to the given width. -/
def beBytes : Nat → Nat → List Nat
  | 0, _ => []
  | k + 1, n => beBytes k (n / 256) ++ [n % 256]

/-- SHA-256 padding: `0x80`, zero fill to 56 mod 64, 8-byte bit length. -/
def shaPad (msg : List Nat) : List Nat :=
  let padLen := (119 - msg.length % 64) % 64
  msg ++ 128 :: List.replicate padLen 0 ++ beBytes 8 (msg.length * 8)

/-- The eight SHA-256 initial hash values (the first 32 bits of the
fractional parts of the square roots of the first 8 primes), in
decimal. -/
def shaH0 : List Nat :=
  [1779033703, 3144134277, 1013904242, 2773480762, 1359893119, 2600822924,
   528734635, 1541459225]

/-- The SHA-256 digest of a byte list, as 8 words. -/
def sha256Words (msg : List Nat) : List Nat :=
  (shaBlocks (shaPad msg)).foldl shaBlock shaH0

def hexDigit (n : Nat) : Char :=
  if n < 10 then Char.ofNat (48 + n) else Char.ofNat (87 + n)

def byteHex (n : Nat) : List Char := [hexDigit (n / 16), hexDigit (n % 16)]

/-- Lowercase hex of the digest, as printed by `fmt`'s `%x`. -/
def sha256Hex (msg : List Nat) : List Char :=
  ((sha256Words msg).map (beBytes 4)).flatten.flatMap byteHex

/-- UTF-8 encoding of one character (`[]byte(path)` in Go). -/
def utf8Char (c : Char) : List Nat :=
  let n := c.toNat
  if n < 128 then [n]
  else if n < 2048 then [192 + n / 64, 128 + n % 64]
  else if n < 65536 then [224 + n / 4096, 128 + n / 64 % 64, 128 + n % 64]
  else [240 + n / 262144, 128 + n / 4096 % 64, 128 + n / 64 % 64, 128 + n % 64]

def utf8Bytes (s : String) : List Nat := s.data.flatMap utf8Char

/-! ## PathResolver and FilenameCodec (`normalizePath`, `generateFilename`)

From `internal/backup/data.go`:

```go
func normalizePath(path string) (string, error) {
    if len(path) > 1 && path[:2] == "~/" {
        home, err := os.UserHomeDir()
        if err != nil { return "", fmt.Errorf("failed to get home dir: %w", err) }
        path = filepath.Join(home, path[2:])
    }
    absPath, err := filepath.Abs(path)
    if err != nil { return "", fmt.Errorf("failed to get absolute path: %w", err) }
    return absPath, nil
}

func generateFilename(path string) string {
    h := sha256.New()
    h.Write([]byte(path))
    return fmt.Sprintf("%s-%x.tar.gz", filepath.Base(path), h.Sum(nil))
}
```

The ambient OS state consulted by `os.UserHomeDir` and `os.Getwd`
(inside `filepath.Abs`) is made an explicit parameter; `none` models the
corresponding call failing. -/

structure OsEnv where
  home : Option String
  cwd : Option String

inductive PathError where
  | homeDirFailed : PathError
  | absFailed : PathError
deriving DecidableEq

deriving instance DecidableEq for Except

/-- Go `filepath.Abs`: absolute paths are cleaned, relative paths joined to
the working directory (failing when `Getwd` fails). -/
def goAbs (env : OsEnv) (p : String) : Except PathError String :=
  if goIsAbs p then Except.ok (clean p)
  else
    match env.cwd with
    | none => Except.error PathError.absFailed
    | some wd => Except.ok (goJoin wd p)

def normalizePath (env : OsEnv) (path : String) : Except PathError String :=
  match path.data with
  | '~' :: '/' :: rest =>
    match env.home with
    | none => Except.error PathError.homeDirFailed
    | some home => goAbs env (goJoin home ⟨rest⟩)
  | _ => goAbs env path

def generateFilename (path : String) : String :=
  goBase path ++ "-" ++ String.mk (sha256Hex (utf8Bytes path)) ++ ".tar.gz"

/-! ## Filesystem model

A filesystem is a finite map from path keys (component lists of cleaned
absolute paths) to nodes.  The model is lexical: operations act on the
path key they name; symlink nodes are inert leaves and are never
followed (link targets are not traversal-checked by the code either —
spec §9 open question). -/

abbrev PathKey := List (List Char)

def keyOf (s : String) : PathKey := pathComps s.data

inductive FNode where
  | dir (mode : Nat) : FNode
  | file (mode : Nat) (content : List Nat) : FNode
  | symlink (target : String) : FNode
deriving DecidableEq

abbrev Fs := List (PathKey × FNode)

def fsLookup (fs : Fs) (k : PathKey) : Option FNode :=
  match fs with
  | [] => none
  | (k', n) :: rest => if k' = k then some n else fsLookup rest k

def fsInsert (fs : Fs) (k : PathKey) (n : FNode) : Fs := (k, n) :: fs

/-- Go `os.MkdirAll`: create every missing directory along the key,
shallowest first, all with the given permission mode; fail without any
effect when a prefix exists as a non-directory (Go returns `ENOTDIR`
before creating anything in that case). -/
def mkdirPrefixes (fs : Fs) (done : PathKey) (mode : Nat) :
    List (List Char) → Except String Fs
  | [] => Except.ok fs
  | c :: rest =>
    match fsLookup fs (done ++ [c]) with
    | some (FNode.dir _) => mkdirPrefixes fs (done ++ [c]) mode rest
    | some _ => Except.error "mkdir: not a directory"
    | none =>
      mkdirPrefixes (fsInsert fs (done ++ [c]) (FNode.dir mode)) (done ++ [c]) mode rest

def mkdirAllK (fs : Fs) (k : PathKey) (mode : Nat) : Except String Fs :=
  mkdirPrefixes fs [] mode k

/-- Model of `extractFile`: `os.OpenFile(path, O_CREATE|O_WRONLY|O_TRUNC, mode)`
followed by `io.Copy`.  Creating over a directory fails; an existing
file is truncated and rewritten, keeping its old mode (`O_CREATE`'s mode
argument only applies on creation).  An existing symlink node is
replaced in this lexical model (the real call would follow the link). -/
def extractFileK (fs : Fs) (k : PathKey) (mode : Nat) (content : List Nat) :
    Except String Fs :=
  match fsLookup fs k with
  | some (FNode.dir _) => Except.error "open: is a directory"
  | some (FNode.file m _) => Except.ok (fsInsert fs k (FNode.file m content))
  | some (FNode.symlink _) => Except.ok (fsInsert fs k (FNode.file mode content))
  | none => Except.ok (fsInsert fs k (FNode.file mode content))

/-- Go `os.Symlink(linkname, path)`: fails when the path already exists. -/
def symlinkK (fs : Fs) (target : String) (k : PathKey) : Except String Fs :=
  match fsLookup fs k with
  | some _ => Except.error "symlink: file exists"
  | none => Except.ok (fsInsert fs k (FNode.symlink target))

/-! ## ArchiveExtractor (`extractArchive`) -/

/-- A parsed tar header together with the payload bytes the tar reader
would deliver for it. -/
structure Header where
  name : String
  typeflag : Char
  mode : Nat
  linkname : String
  content : List Nat
deriving DecidableEq

def tarTypeReg : Char := '0'

def tarTypeDir : Char := '5'

def tarTypeSymlink : Char := '2'

/-- One iteration of `extractArchive`'s header loop (src lines 72–113):
join the header name to the parent directory, enforce the prefix
containment check, then dispatch on the type flag (directory, regular
file, symlink; any other flag is silently skipped).  Returns the
filesystem after the step's (possibly partial) effects and an error when
the step aborts the restore. -/
def extractEntry (parentDir : String) (fs : Fs) (h : Header) : Fs × Option String :=
  let extractPath := goJoin parentDir h.name
  let cleanPath := clean extractPath
  let cleanParent := clean parentDir
  if !strHasPrefix cleanPath (cleanParent ++ "/") && !(cleanPath == cleanParent) then
    (fs, some ("illegal file path in archive: " ++ h.name))
  else if h.typeflag == tarTypeDir then
    match mkdirAllK fs (keyOf extractPath) h.mode with
    | Except.ok fs' => (fs', none)
    | Except.error e => (fs, some e)
  else if h.typeflag == tarTypeReg then
    match mkdirAllK fs (keyOf (goDir extractPath)) 493 with
    | Except.error e => (fs, some e)
    | Except.ok fs' =>
      match extractFileK fs' (keyOf extractPath) h.mode h.content with
      | Except.error e => (fs', some e)
      | Except.ok fs'' => (fs'', none)
  else if h.typeflag == tarTypeSymlink then
    match mkdirAllK fs (keyOf (goDir extractPath)) 493 with
    | Except.error e => (fs, some e)
    | Except.ok fs' =>
      match symlinkK fs' h.linkname (keyOf extractPath) with
      | Except.error e => (fs', some e)
      | Except.ok fs'' => (fs'', none)
  else (fs, none)

/-- The header loop of `extractArchive`: stop at the first failing
entry, leaving everything extracted so far as-is. -/
def extractEntries (parentDir : String) : List Header → Fs → Fs × Option String
  | [], fs => (fs, none)
  | h :: rest, fs =>
    match extractEntry parentDir fs h with
    | (fs', none) => extractEntries parentDir rest fs'
    | (fs', some e) => (fs', some e)

/-- Model of `extractArchive` on an already-parsed header stream: extraction is
rooted at the parent directory of the target path (src line 60). -/
def extractArchive (targetPath : String) (hs : List Header) (fs : Fs) :
    Fs × Option String :=
  extractEntries (goDir targetPath) hs fs

/-- Claim-side reading of "the name, joined to the target parent
directory and cleaned, resolves outside the target parent directory":
the resolved components of the parent are not a prefix of the resolved
components of the joined path. -/
def escapesParent (parentDir name : String) : Prop :=
  ¬ pathComps parentDir.data <+: pathComps (goJoin parentDir name).data

instance (parentDir name : String) : Decidable (escapesParent parentDir name) :=
  inferInstanceAs (Decidable ¬ _)

/-- A key strictly inside (a proper descendant of) another. -/
def strictlyInside (p k : PathKey) : Prop := p <+: k ∧ p ≠ k

instance (p k : PathKey) : Decidable (strictlyInside p k) :=
  inferInstanceAs (Decidable (_ ∧ _))

/-! ## Path component lemmas

Facts about `splitSlash`, `cleanStack`, `joinComps` used to relate the
string-level prefix check of `extractArchive` to component-level
containment. -/

/-- A component produced by cleaning: nonempty, slash-free, not a dot
component. -/
def PlainComp (c : List Char) : Prop :=
  c ≠ [] ∧ c ≠ ['.'] ∧ c ≠ ['.', '.'] ∧ '/' ∉ c

def PlainComps (cs : List (List Char)) : Prop := ∀ c ∈ cs, PlainComp c

instance (c : List Char) : Decidable (PlainComp c) :=
  inferInstanceAs (Decidable (_ ∧ _ ∧ _ ∧ _))

instance (cs : List (List Char)) : Decidable (PlainComps cs) :=
  List.decidableBAll _ cs

/-- Components surviving the clean of a traversal-free name: empty and
`"."` components dropped, everything else kept. -/
def dropDots (cs : List (List Char)) : List (List Char) :=
  cs.filter (fun c => decide ¬(c = [] ∨ c = ['.']))

/-- Concrete instantiation data for the traversal-abort theorem: a
target `/home/u/proj`, one good directory header already extracted, a
traversing header `../evil`, and one further header that must not be
processed. -/
def c1Fs0 : Fs :=
  [([], FNode.dir 493), ([['h', 'o', 'm', 'e']], FNode.dir 493),
   ([['h', 'o', 'm', 'e'], ['u']], FNode.dir 493)]

def c1Fs1 : Fs :=
  ([['h', 'o', 'm', 'e'], ['u'], ['p', 'r', 'o', 'j']], FNode.dir 493) :: c1Fs0

def c4Fs0 : Fs :=
  [([], FNode.dir 493), ([['h', 'o', 'm', 'e']], FNode.dir 493),
   ([['h', 'o', 'm', 'e'], ['u']], FNode.dir 493)]

def c4Fs1 : Fs :=
  ([['h', 'o', 'm', 'e'], ['u'], ['s', 'i', 'b', 'l', 'i', 'n', 'g'],
    ['f', 'i', 'l', 'e']], FNode.dir 365) ::
  ([['h', 'o', 'm', 'e'], ['u'], ['s', 'i', 'b', 'l', 'i', 'n', 'g']],
    FNode.dir 365) :: c4Fs0

/-! ## ArchiveWriter.Close (`errors.Join` revision) and `newArchiveWriter`

```go
func (w *ArchiveWriter) Close() error {
    return errors.Join(
        w.tar.Close(),
        w.gzip.Close(),
        w.file.Close(),
    )
}
```

Go evaluates the arguments left to right, so the layers are released
container first, then compressor, then file.  `errors.Join` discards
nil errors and wraps the remaining ones, in order; it returns nil iff
all are nil.  Each layer's close result is a parameter; the model
returns the call trace together with the joined error. -/

def errorsJoin (es : List (Option String)) : Option (List String) :=
  match es.filterMap id with
  | [] => none
  | e :: l => some (e :: l)

inductive CloseLayer where
  | container : CloseLayer
  | compressor : CloseLayer
  | file : CloseLayer
deriving DecidableEq

structure CloseResults where
  tarErr : Option String
  gzipErr : Option String
  fileErr : Option String

def archiveWriterClose (r : CloseResults) : List CloseLayer × Option (List String) :=
  ([CloseLayer.container, CloseLayer.compressor, CloseLayer.file],
   errorsJoin [r.tarErr, r.gzipErr, r.fileErr])

/-! ## `newArchiveWriter` (`os.Create` semantics) and archive naming -/

/-- Go `os.Create` = `OpenFile(path, O_RDWR|O_CREATE|O_TRUNC, 0666)`: fails
when the parent directory is missing (or not a directory) or the path
names an existing directory; otherwise creates the file, or truncates
the existing file in place — silently — keeping its mode.  (Lexical
model: an existing symlink node is replaced rather than followed.) -/
def osCreate (fs : Fs) (path : String) : Except String Fs :=
  if keyOf path = [] then Except.error "create: is a directory"
  else
    match fsLookup fs (keyOf (goDir path)) with
    | some (FNode.dir _) =>
      match fsLookup fs (keyOf path) with
      | some (FNode.dir _) => Except.error "create: is a directory"
      | some (FNode.file m _) => Except.ok (fsInsert fs (keyOf path) (FNode.file m []))
      | _ => Except.ok (fsInsert fs (keyOf path) (FNode.file 438 []))
    | _ => Except.error "create: no such directory"

/-- Model of `newArchiveWriter(path)`: `os.Create`, then
`pgzip.NewWriterLevel(file, DefaultCompression)` — which can only fail
on an invalid compression level and `DefaultCompression` is valid — and
tar layering, which cannot fail.  It succeeds exactly when `os.Create`
does. -/
def newArchiveWriter (fs : Fs) (path : String) : Except String Fs :=
  osCreate fs path

/-- Archive path opened by `backupLocation` (part_003 revision): the
location path is normalized first and the filename generated from the
normalized path. -/
def backupArchivePath (env : OsEnv) (outputDir : String) (locPath : String) :
    Except PathError String :=
  match normalizePath env locPath with
  | Except.error e => Except.error e
  | Except.ok p => Except.ok (goJoin outputDir (generateFilename p))

/-- Archive path probed by `restoreLocation`: the filename is generated
from the location path as authored in the config, before
normalization. -/
def restoreArchivePath (backupDir : String) (locPath : String) : String :=
  goJoin backupDir (generateFilename locPath)

def c9Env : OsEnv := ⟨none, some "/"⟩

def c9Fs0 : Fs :=
  [([], FNode.dir 493), ([['b', 'a', 'c', 'k', 'u', 'p']], FNode.dir 493)]

def c9ArchivePath : String := goJoin "/backup" (generateFilename "/a/b")

def c9Fs1 : Fs := fsInsert c9Fs0 (keyOf c9ArchivePath) (FNode.file 438 [])

/-! ## LocationScanner (`Location.scan`) and ArchiveWriter entries

The source subtree of a location is a tree of named nodes; directory
listings appear in the sorted order `filepath.WalkDir` visits them.
`scanTree`/`scanForest` mirror the walk callback of `Location.scan`
(part_000 revision): the root itself is skipped (the forest is the
root's children), an entry whose name matches an ignore pattern is
skipped — with `SkipDir` pruning the whole subtree for directories —
and `totalSize` accumulates `info.Size()` of the included non-directory
entries (an lstat size: a symlink's size is the length of its target
string). -/

inductive FTree where
  | file (name : String) (mode : Nat) (content : List Nat) : FTree
  | symlink (name : String) (target : String) : FTree
  | dir (name : String) (mode : Nat) (children : List FTree) : FTree

def FTree.nameOf : FTree → String
  | FTree.file n _ _ => n
  | FTree.symlink n _ => n
  | FTree.dir n _ _ => n

/-- The tar type flag `tar.FileInfoHeader` would assign from the node's
lstat kind. -/
def nodeKind : FTree → Char
  | FTree.file _ _ _ => tarTypeReg
  | FTree.symlink _ _ => tarTypeSymlink
  | FTree.dir _ _ _ => tarTypeDir

mutual

def scanTree (ig : List String) (ppath : String) : FTree → List String × Nat
  | FTree.file n _ c =>
    if n ∈ ig then ([], 0) else ([goJoin ppath n], c.length)
  | FTree.symlink n tgt =>
    if n ∈ ig then ([], 0) else ([goJoin ppath n], tgt.length)
  | FTree.dir n _ ch =>
    if n ∈ ig then ([], 0)
    else
      let sub := scanForest ig (goJoin ppath n) ch
      (goJoin ppath n :: sub.1, sub.2)

def scanForest (ig : List String) (ppath : String) : List FTree → List String × Nat
  | [] => ([], 0)
  | t :: ts =>
    let a := scanTree ig ppath t
    let b := scanForest ig ppath ts
    (a.1 ++ b.1, a.2 + b.2)

end

/-- The walk seen as data: one record per visited, non-ignored entry. -/
structure WalkedEntry where
  path : String
  name : String
  isDir : Bool
  size : Nat
deriving DecidableEq

mutual

def entriesTree (ig : List String) (ppath : String) : FTree → List WalkedEntry
  | FTree.file n _ c =>
    if n ∈ ig then [] else [⟨goJoin ppath n, n, false, c.length⟩]
  | FTree.symlink n tgt =>
    if n ∈ ig then [] else [⟨goJoin ppath n, n, false, tgt.length⟩]
  | FTree.dir n _ ch =>
    if n ∈ ig then []
    else ⟨goJoin ppath n, n, true, 0⟩ :: entriesForest ig (goJoin ppath n) ch

def entriesForest (ig : List String) (ppath : String) : List FTree → List WalkedEntry
  | [] => []
  | t :: ts => entriesTree ig ppath t ++ entriesForest ig ppath ts

end

/-! ## `writeEntryNoMessage` (part_000 revision)

```go
func (l *Location) writeEntryNoMessage(w *ArchiveWriter, path string) error {
    info, err := os.Stat(path)            // NOTE: Stat follows symlinks
    if err != nil { return err }
    relPath, err := filepath.Rel(l.Path, path)
    if err != nil { return err }
    hdr, err := tar.FileInfoHeader(info, "")
    if err != nil { return err }
    hdr.Name = filepath.Join(filepath.Base(l.Path), relPath)
    hdr.Format = tar.FormatPAX
    if err := w.WriteHeader(hdr); err != nil { return err }
    if !info.IsDir() {
        if err := copyFileToArchive(w, path); err != nil { return err }
    }
    return nil
}
```

`os.Stat` follows symbolic links (up to the kernel's symlink-recursion
budget, modelled as fuel); `copyFileToArchive` opens the path, which
also follows the link, so a symlink entry is archived as whatever it
resolves to.  A dangling link makes `os.Stat` fail.  `filepath.Rel` is
modelled on cleaned absolute inputs by stripping the common component
run. -/

def findNameT : List FTree → String → Option FTree
  | [], _ => none
  | t :: ts, nm => if t.nameOf = nm then some t else findNameT ts nm

def findPathT : List (List Char) → List FTree → Option FTree
  | [], _ => none
  | [c], f => findNameT f (String.mk c)
  | c :: c' :: rest, f =>
    match findNameT f (String.mk c) with
    | some (FTree.dir _ _ ch) => findPathT (c' :: rest) ch
    | _ => none

def stripPre : List (List Char) → List (List Char) → Option (List (List Char))
  | [], ts => some ts
  | _ :: _, [] => none
  | b :: bs, t :: ts => if b = t then stripPre bs ts else none

/-- Symlink recursion budget of `os.Stat` (MAXSYMLINKS = 40). -/
def statFuel : Nat := 40

/-- Go `os.Stat` within the modelled location subtree: resolve the path's
components under the location root, following symlink nodes (relative
targets against the link's directory, absolute ones from the root).
`none` models a failing stat (missing entry, dangling link, or symlink
loop). -/
def statPath (locPath : String) (root : List FTree) : Nat → String → Option FTree
  | 0, _ => none
  | fuel + 1, p =>
    match stripPre (pathComps locPath.data) (pathComps p.data) with
    | none => none
    | some rel =>
      match findPathT rel root with
      | some (FTree.symlink _ tgt) =>
        if goIsAbs tgt then statPath locPath root fuel tgt
        else statPath locPath root fuel (goJoin (goDir p) tgt)
      | r => r

def dropCommon : List (List Char) → List (List Char) → List (List Char) × List (List Char)
  | b :: bs, t :: ts =>
    if b = t then dropCommon bs ts else (b :: bs, t :: ts)
  | bs, ts => (bs, ts)

/-- Go `filepath.Rel` on cleaned absolute inputs. -/
def goRel (base targ : String) : String :=
  let bt := dropCommon (pathComps base.data) (pathComps targ.data)
  match List.replicate bt.1.length ['.', '.'] ++ bt.2 with
  | [] => "."
  | c :: cs => ⟨joinComps (c :: cs)⟩

/-- One `writeEntryNoMessage` call: stat (following links), compute the
header from the resolved info, prefix the name with the location's base
name, and attach the payload carried for non-directories. -/
def writeEntryNM (locPath : String) (root : List FTree) (p : String) :
    Except String Header :=
  match statPath locPath root statFuel p with
  | none => Except.error "stat: no such file or directory"
  | some info =>
    let nm := goJoin (goBase locPath) (goRel locPath p)
    match info with
    | FTree.dir _ m _ => Except.ok ⟨nm, tarTypeDir, m, "", []⟩
    | FTree.file _ m c => Except.ok ⟨nm, tarTypeReg, m, "", c⟩
    | FTree.symlink _ _ =>
      -- unreachable: `statPath` follows links, as `os.Stat` does; were it
      -- reached, `tar.FileInfoHeader(info, "")` would carry an empty target
      Except.ok ⟨nm, tarTypeSymlink, 511, "", []⟩

def writeAll (locPath : String) (root : List FTree) :
    List String → Except String (List Header)
  | [] => Except.ok []
  | p :: ps =>
    match writeEntryNM locPath root p with
    | Except.error e => Except.error e
    | Except.ok h =>
      match writeAll locPath root ps with
      | Except.error e => Except.error e
      | Except.ok hs => Except.ok (h :: hs)

/-- Model of `Location.scan` followed by `writeToArchive`: the headers written
for a location. -/
def archiveHeaders (locPath : String) (root : List FTree) (ig : List String) :
    Except String (List Header) :=
  writeAll locPath root (scanForest ig locPath root).1

/-- A location containing a regular file and a symlink pointing at it,
rooted at `/home/u/loc`. -/
def c2Root : List FTree :=
  [FTree.file "a.txt" 420 [104, 105], FTree.symlink "link" "a.txt"]

def c2Fs0 : Fs :=
  [([], FNode.dir 493), ([['h', 'o', 'm', 'e']], FNode.dir 493),
   ([['h', 'o', 'm', 'e'], ['u']], FNode.dir 493)]

def c2Fs1 : Fs :=
  ([['h', 'o', 'm', 'e'], ['u'], ['l', 'o', 'c'], ['l', 'i', 'n', 'k']],
      FNode.file 420 [104, 105]) ::
  ([['h', 'o', 'm', 'e'], ['u'], ['l', 'o', 'c'], ['a', '.', 't', 'x', 't']],
      FNode.file 420 [104, 105]) ::
  ([['h', 'o', 'm', 'e'], ['u'], ['l', 'o', 'c']], FNode.dir 493) :: c2Fs0

/-- A location whose only child is ignored. -/
def c7Root : List FTree := [FTree.dir "node_modules" 493 [FTree.file "x" 420 [7]]]

def c7Fs0 : Fs :=
  [([], FNode.dir 493), ([['t', 'm', 'p']], FNode.dir 493),
   ([['t', 'm', 'p'], ['o', 'u', 't']], FNode.dir 493)]

example :
    String.mk (sha256Hex (utf8Bytes "abc")) =
      "ba7816bf8f01cfea414140de5dae2223b00361a396177a9cb410ff61f20015ad" := by
  decide

example :
    String.mk (sha256Hex (utf8Bytes "")) =
      "e3b0c44298fc1c149afbf4c8996fb92427ae41e4649b934ca495991b7852b855" := by
  decide

example :
    normalizePath ⟨some "/home/u", some "/w"⟩ "~/x" = Except.ok "/home/u/x" := by
  decide

example :
    normalizePath ⟨some "/home/u", some "/w"⟩ "~" = Except.ok "/w/~" := by
  decide

example :
    normalizePath ⟨none, some "/w"⟩ "~abc" = Except.ok "/w/~abc" := by
  decide

theorem splitSlash_ne_nil (p : List Char) : splitSlash p ≠ [] := by
  induction p with
  | nil => simp [splitSlash]
  | cons c rest ih =>
    simp only [splitSlash]
    split
    · simp
    · cases h : splitSlash rest with
      | nil => exact absurd h ih
      | cons g gs => simp

theorem splitSlash_no_slash (p : List Char) : ∀ c ∈ splitSlash p, '/' ∉ c := by
  induction p with
  | nil => intro c hc; simp [splitSlash] at hc; simp [hc]
  | cons a rest ih =>
    intro c hc
    simp only [splitSlash] at hc
    by_cases ha : a = '/'
    · simp [ha] at hc
      rcases hc with hc | hc
      · simp [hc]
      · exact ih c hc
    · rw [if_neg ha] at hc
      cases h : splitSlash rest with
      | nil => exact absurd h (splitSlash_ne_nil rest)
      | cons g gs =>
        rw [h] at hc
        simp at hc
        rcases hc with hc | hc
        · subst hc
          intro hmem
          simp at hmem
          rcases hmem with hmem | hmem
          · exact ha hmem.symm
          · exact ih g (by simp [h]) hmem
        · exact ih c (by simp [h, hc])

theorem splitSlash_app (x y : List Char) :
    splitSlash (x ++ '/' :: y) = splitSlash x ++ splitSlash y := by
  induction x with
  | nil => simp [splitSlash]
  | cons a x ih =>
    by_cases ha : a = '/'
    · simp [splitSlash, ha, ih]
    · simp only [List.cons_append, splitSlash, if_neg ha]
      have ih' : splitSlash (x.append ('/' :: y)) = splitSlash x ++ splitSlash y := ih
      rw [ih']
      cases h : splitSlash x with
      | nil => exact absurd h (splitSlash_ne_nil x)
      | cons g gs => simp

theorem splitSlash_slashfree (c : List Char) (h : '/' ∉ c) :
    splitSlash c = [c] := by
  induction c with
  | nil => rfl
  | cons a c ih =>
    have ha : a ≠ '/' := by intro e; exact h (by simp [e])
    have hc : '/' ∉ c := by intro e; exact h (by simp [e])
    simp only [splitSlash, if_neg ha, ih hc]

theorem cleanStack_app (abs : Bool) (ys : List (List Char)) :
    ∀ (xs acc : List (List Char)),
      cleanStack abs (xs ++ ys) acc = cleanStack abs ys (cleanStack abs xs acc)
  | [], _ => rfl
  | c :: xs, acc => by
    simp only [List.cons_append, cleanStack]
    split
    · exact cleanStack_app abs ys xs acc
    · split
      · match acc with
        | [] =>
          simp only []
          split <;> exact cleanStack_app abs ys xs _
        | t :: acc' =>
          simp only []
          split <;> exact cleanStack_app abs ys xs _
      · exact cleanStack_app abs ys xs _

theorem cleanStack_plain (abs : Bool) :
    ∀ (cs acc : List (List Char)), PlainComps cs →
      cleanStack abs cs acc = cs.reverse ++ acc
  | [], _, _ => rfl
  | c :: cs, acc, h => by
    obtain ⟨hne, hdot, hdd, _⟩ := h c (by simp)
    have hcs : PlainComps cs := fun d hd => h d (by simp [hd])
    have hor : ¬(c = [] ∨ c = ['.']) := by simp [hne, hdot]
    simp only [cleanStack, if_neg hor, if_neg hdd]
    rw [cleanStack_plain abs cs (c :: acc) hcs]
    simp

theorem cleanStack_nodots (abs : Bool) :
    ∀ (cs acc : List (List Char)), (∀ c ∈ cs, c ≠ ['.', '.']) →
      cleanStack abs cs acc = (dropDots cs).reverse ++ acc
  | [], acc, _ => by simp [cleanStack, dropDots]
  | c :: cs, acc, h => by
    have hcs : ∀ d ∈ cs, d ≠ ['.', '.'] := fun d hd => h d (by simp [hd])
    by_cases hc : c = [] ∨ c = ['.']
    · have hfilter : dropDots (c :: cs) = dropDots cs := by
        simp only [dropDots, List.filter]
        rw [show (decide ¬(c = [] ∨ c = ['.'])) = false by simp [hc]]
      simp only [cleanStack, if_pos hc]
      rw [cleanStack_nodots abs cs acc hcs, hfilter]
    · have hfilter : dropDots (c :: cs) = c :: dropDots cs := by
        simp only [dropDots, List.filter]
        rw [show (decide ¬(c = [] ∨ c = ['.'])) = true by simp [hc]]
      simp only [cleanStack, if_neg hc, if_neg (h c (by simp))]
      rw [cleanStack_nodots abs cs (c :: acc) hcs, hfilter]
      simp

theorem joinComps_cons (c : List Char) (cs : List (List Char)) :
    joinComps (c :: cs) = if cs = [] then c else c ++ '/' :: joinComps cs := by
  cases cs <;> simp [joinComps]

theorem joinComps_app :
    ∀ (ps qs : List (List Char)), ps ≠ [] → qs ≠ [] →
      joinComps (ps ++ qs) = joinComps ps ++ '/' :: joinComps qs
  | [], _, hp, _ => absurd rfl hp
  | [a], qs, _, hq => by
    rw [List.singleton_append, joinComps_cons a qs, if_neg hq]
    simp [joinComps]
  | a :: b :: ps, qs, _, hq => by
    have ih := joinComps_app (b :: ps) qs (by simp) hq
    show joinComps (a :: ((b :: ps) ++ qs)) = joinComps (a :: b :: ps) ++ '/' :: joinComps qs
    rw [joinComps_cons a ((b :: ps) ++ qs), if_neg (by simp), ih,
      joinComps_cons a (b :: ps), if_neg (by simp)]
    simp

theorem splitSlash_joinComps :
    ∀ (cs : List (List Char)), cs ≠ [] → (∀ c ∈ cs, '/' ∉ c) →
      splitSlash (joinComps cs) = cs
  | [], h, _ => absurd rfl h
  | [c], _, h => by
    simp only [joinComps]
    exact splitSlash_slashfree c (h c (by simp))
  | c :: c' :: cs, _, h => by
    have ih := splitSlash_joinComps (c' :: cs) (by simp)
      (fun d hd => h d (by simp [hd]))
    simp only [joinComps]
    rw [splitSlash_app, splitSlash_slashfree c (h c (by simp)), ih]
    simp

theorem isAbsL_absString (cs : List (List Char)) :
    isAbsL (absString cs) = true := rfl

theorem pathComps_absString (cs : List (List Char)) (h : PlainComps cs) :
    pathComps (absString cs) = cs := by
  cases cs with
  | nil => rfl
  | cons c cs =>
    have hsf : ∀ d ∈ c :: cs, '/' ∉ d := fun d hd => (h d hd).2.2.2
    simp only [pathComps, absString, isAbsL]
    have : splitSlash ('/' :: joinComps (c :: cs))
        = [] :: splitSlash (joinComps (c :: cs)) := by simp [splitSlash]
    rw [this, splitSlash_joinComps (c :: cs) (by simp) hsf]
    show (cleanStack true ([] :: c :: cs) []).reverse = c :: cs
    rw [show cleanStack true ([] :: c :: cs) [] = cleanStack true (c :: cs) [] from by
      simp [cleanStack]]
    rw [cleanStack_plain true (c :: cs) [] h]
    simp

theorem cleanStack_mem (cs : List (List Char)) :
    ∀ acc, (∀ c ∈ cs, '/' ∉ c) → (∀ c ∈ acc, PlainComp c) →
      ∀ c ∈ cleanStack true cs acc, PlainComp c := by
  induction cs with
  | nil => intro acc _ hacc c hc; exact hacc c hc
  | cons d cs ih =>
    intro acc hsf hacc c hc
    have hsf' : ∀ e ∈ cs, '/' ∉ e := fun e he => hsf e (by simp [he])
    simp only [cleanStack] at hc
    split at hc
    · exact ih acc hsf' hacc c hc
    · split at hc
      · split at hc
        · split at hc
          · exact ih [] hsf' (by simp) c hc
          · rename_i habs
            exact absurd trivial habs
        · rename_i t acc'
          split at hc
          · rename_i hdd
            exact absurd hdd (hacc t (by simp)).2.2.1
          · exact ih _ hsf' (fun e he => hacc e (by simp [he])) c hc
      · rename_i h1 h2
        refine ih (d :: acc) hsf' ?_ c hc
        intro e he
        rcases List.mem_cons.mp he with he | he
        · subst he
          simp only [not_or] at h1
          exact ⟨h1.1, h1.2, h2, hsf e (by simp)⟩
        · exact hacc e he

/-- Cleaning an absolute path yields plain components. -/
theorem pathComps_plain (p : List Char) (habs : isAbsL p = true) :
    PlainComps (pathComps p) := by
  intro c hc
  simp only [pathComps, habs] at hc
  rw [List.mem_reverse] at hc
  exact cleanStack_mem (splitSlash p) [] (splitSlash_no_slash p) (by simp) c hc

theorem cleanL_of_abs (p : List Char) (habs : isAbsL p = true) :
    cleanL p = absString (pathComps p) := by
  simp [cleanL, habs]

theorem pathComps_cleanL (p : List Char) (habs : isAbsL p = true) :
    pathComps (cleanL p) = pathComps p := by
  rw [cleanL_of_abs p habs, pathComps_absString _ (pathComps_plain p habs)]

theorem isAbsL_app (a b : List Char) (ha : isAbsL a = true) :
    isAbsL (a ++ b) = true := by
  cases a with
  | nil => simp [isAbsL] at ha
  | cons c a =>
    simp only [isAbsL] at ha
    simp only [List.cons_append, isAbsL]
    exact ha

theorem isAbsL_ne_nil (a : List Char) (ha : isAbsL a = true) : a ≠ [] := by
  cases a <;> simp_all [isAbsL]

/-- Go `filepath.Join` of an absolute left argument is a cleaned absolute
path. -/
theorem goJoinL_abs (a b : List Char) (ha : isAbsL a = true) :
    goJoinL a b = absString (pathComps (goJoinL a b))
      ∧ PlainComps (pathComps (goJoinL a b)) := by
  have hne := isAbsL_ne_nil a ha
  by_cases hb : b = []
  · have h1 : goJoinL a b = cleanL a := by simp [goJoinL, hne, hb]
    have h2 : pathComps (goJoinL a b) = pathComps a := by
      rw [h1, pathComps_cleanL a ha]
    rw [h2, h1, cleanL_of_abs a ha]
    exact ⟨rfl, pathComps_plain a ha⟩
  · have habs2 : isAbsL (a ++ '/' :: b) = true := isAbsL_app a _ ha
    have h1 : goJoinL a b = cleanL (a ++ '/' :: b) := by simp [goJoinL, hne, hb]
    have h2 : pathComps (goJoinL a b) = pathComps (a ++ '/' :: b) := by
      rw [h1, pathComps_cleanL _ habs2]
    rw [h2, h1, cleanL_of_abs _ habs2]
    exact ⟨rfl, pathComps_plain _ habs2⟩

/-- Boundary matching: two slash-free runs followed by `'/'` align in a
list-prefix relation. -/
theorem slashfree_bound :
    ∀ (a b u v : List Char), '/' ∉ a → '/' ∉ b →
      (a ++ '/' :: u) <+: (b ++ '/' :: v) → a = b ∧ u <+: v
  | [], b, u, v, _, hb, h => by
    cases b with
    | nil => simpa using h
    | cons d b' =>
      simp only [List.nil_append, List.cons_append, List.cons_prefix_cons] at h
      exact absurd h.1.symm (by intro e; exact hb (by simp [e]))
  | c :: a', b, u, v, ha, hb, h => by
    cases b with
    | nil =>
      simp only [List.cons_append, List.nil_append, List.cons_prefix_cons] at h
      exact absurd h.1 (by intro e; exact ha (by simp [e]))
    | cons d b' =>
      simp only [List.cons_append, List.cons_prefix_cons] at h
      obtain ⟨hcd, h'⟩ := h
      have := slashfree_bound a' b' u v
        (by intro e; exact ha (by simp [e]))
        (by intro e; exact hb (by simp [e])) h'
      exact ⟨by rw [hcd, this.1], this.2⟩

theorem join_pre :
    ∀ (ps qs : List (List Char)), PlainComps ps → PlainComps qs →
      (joinComps ps ++ ['/']) <+: joinComps qs → ps <+: qs
  | [], qs, _, _, _ => List.nil_prefix
  | a :: ps', qs, hps, hqs, h => by
    cases qs with
    | nil =>
      exfalso
      have hlen := h.length_le
      simp only [joinComps, List.length_append, List.length_nil,
        List.length_cons] at hlen
      omega
    | cons b qs' =>
      have hb : PlainComp b := hqs b (by simp)
      have ha : PlainComp a := hps a (by simp)
      cases hq' : qs' with
      | nil =>
        exfalso
        rw [hq'] at h
        have hslash : '/' ∈ joinComps [b] := by
          refine h.sublist.subset ?_
          simp
        simp only [joinComps] at hslash
        exact hb.2.2.2 hslash
      | cons q qs'' =>
        have hjq : joinComps (b :: q :: qs'') = b ++ '/' :: joinComps (q :: qs'') := by
          rw [joinComps_cons]; simp
        rw [hq'] at h
        rw [hjq] at h
        cases hp' : ps' with
        | nil =>
          rw [hp'] at h
          simp only [joinComps] at h
          have := slashfree_bound a b [] (joinComps (q :: qs'')) ha.2.2.2 hb.2.2.2
            (by simpa using h)
          rw [this.1]
          exact (List.cons_prefix_cons).mpr ⟨rfl, List.nil_prefix⟩
        | cons p ps'' =>
          rw [hp'] at h hps
          have hstep : joinComps (a :: p :: ps'') ++ ['/']
              = a ++ '/' :: (joinComps (p :: ps'') ++ ['/']) := by
            rw [joinComps_cons]; simp
          rw [hstep] at h
          have hsb := slashfree_bound a b (joinComps (p :: ps'') ++ ['/'])
            (joinComps (q :: qs'')) ha.2.2.2 hb.2.2.2 h
          have hih := join_pre (p :: ps'') (q :: qs'')
            (fun e he => hps e (List.mem_cons_of_mem a he))
            (fun e he => hqs e (by rw [hq']; exact List.mem_cons_of_mem b he))
            hsb.2
          rw [hsb.1]
          exact (List.cons_prefix_cons).mpr ⟨rfl, hih⟩

/-- The string-level containment check of `extractArchive` implies
component-level containment, for cleaned absolute paths. -/
theorem absStr_pre (ps qs : List (List Char)) (hps : PlainComps ps)
    (hqs : PlainComps qs)
    (h : (absString ps ++ ['/']) <+: absString qs) : ps <+: qs := by
  simp only [absString, List.cons_append, List.cons_prefix_cons] at h
  exact join_pre ps qs hps hqs h.2

/-- Conversely, strict component containment under a nonempty parent
implies the string-level check passes. -/
theorem absStr_pre_conv (ps qs : List (List Char)) (hne : ps ≠ [])
    (hpre : ps <+: qs) (hneq : ps ≠ qs) :
    (absString ps ++ ['/']) <+: absString qs := by
  obtain ⟨r, hr⟩ := hpre
  have hrne : r ≠ [] := by
    intro e; rw [e, List.append_nil] at hr; exact hneq hr
  have : absString qs = (absString ps ++ ['/']) ++ joinComps r := by
    rw [← hr]
    simp only [absString]
    rw [joinComps_app ps r hne hrne]
    simp
  rw [this]
  exact List.prefix_append _ _

theorem pre_antisymm {α : Type} {l₁ l₂ : List α} (h1 : l₁ <+: l₂) (h2 : l₂ <+: l₁) :
    l₁ = l₂ :=
  h1.eq_of_length (Nat.le_antisymm h1.length_le h2.length_le)

theorem hasPre_iff (pre s : List Char) : pre.isPrefixOf s = true ↔ pre <+: s :=
  List.isPrefixOf_iff_prefix

theorem string_data_app (a b : String) : (a ++ b).data = a.data ++ b.data := rfl

/-- Lemma about `upToLastSlash`: it cuts exactly at the final separator when the tail is
slash-free. -/
theorem upToLS_app (y c : List Char) (hc : '/' ∉ c) :
    upToLastSlash (y ++ '/' :: c) = y ++ ['/'] := by
  have hdrop : ∀ (l l₂ : List Char), (∀ x ∈ l, x ≠ '/') →
      List.dropWhile (fun x => x ≠ '/') (l ++ l₂)
        = List.dropWhile (fun x => x ≠ '/') l₂ := by
    intro l l₂ hl
    induction l with
    | nil => rfl
    | cons x l ih =>
      simp only [List.cons_append, List.dropWhile_cons]
      rw [if_pos (by simpa using hl x (by simp))]
      exact ih (fun e he => hl e (by simp [he]))
  simp only [upToLastSlash]
  rw [show (y ++ '/' :: c).reverse = c.reverse ++ '/' :: y.reverse by simp]
  rw [hdrop c.reverse ('/' :: y.reverse)
    (fun x hx => by
      intro e
      exact hc (by rw [← e]; exact List.mem_reverse.mp hx))]
  simp [List.dropWhile_cons]

theorem pathComps_root : pathComps ['/'] = [] := by decide

/-- The directory part of a cleaned absolute path is a componentwise
ancestor. -/
theorem dirComps_sub (cs : List (List Char)) (h : PlainComps cs) :
    pathComps (dirL (absString cs)) <+: cs := by
  rcases List.eq_nil_or_concat cs with hnil | ⟨cs', c, hcc⟩
  · subst hnil
    exact List.prefix_refl _
  · subst hcc
    simp only [List.concat_eq_append] at h ⊢
    have hc : PlainComp c := h c (by simp)
    have hcs' : PlainComps cs' := fun e he => h e (by simp [he])
    cases cs' with
    | nil =>
      have : absString ([] ++ [c]) = [] ++ '/' :: c := by simp [absString, joinComps]
      rw [this, dirL, upToLS_app [] c hc.2.2.2]
      rw [show ([] : List Char) ++ ['/'] = ['/'] from rfl]
      rw [show cleanL ['/'] = absString (pathComps ['/']) from cleanL_of_abs ['/'] rfl]
      rw [pathComps_root]
      rw [show pathComps (absString []) = [] from pathComps_absString [] (by intro e he; simp at he)]
      exact List.nil_prefix
    | cons d cs'' =>
      have hjoin : joinComps ((d :: cs'') ++ [c]) = joinComps (d :: cs'') ++ '/' :: c := by
        rw [joinComps_app (d :: cs'') [c] (by simp) (by simp)]
        simp [joinComps]
      have habs : absString ((d :: cs'') ++ [c])
          = ('/' :: joinComps (d :: cs'')) ++ '/' :: c := by
        show '/' :: joinComps ((d :: cs'') ++ [c]) = _
        rw [hjoin]
        rfl
      rw [habs, dirL, upToLS_app _ c hc.2.2.2]
      have habs2 : isAbsL (('/' :: joinComps (d :: cs'')) ++ ['/']) = true := rfl
      rw [cleanL_of_abs _ habs2]
      have hsplit : splitSlash (('/' :: joinComps (d :: cs'')) ++ ['/'])
          = [] :: ((d :: cs'') ++ [[]]) := by
        rw [show ('/' :: joinComps (d :: cs'')) ++ ['/']
            = '/' :: (joinComps (d :: cs'') ++ '/' :: []) by simp]
        rw [show splitSlash ('/' :: (joinComps (d :: cs'') ++ '/' :: []))
            = [] :: splitSlash (joinComps (d :: cs'') ++ '/' :: []) from by
          simp [splitSlash]]
        rw [splitSlash_app]
        rw [splitSlash_joinComps (d :: cs'') (by simp)
          (fun e he => (hcs' e he).2.2.2)]
        rfl
      have hcomps : pathComps (('/' :: joinComps (d :: cs'')) ++ ['/']) = d :: cs'' := by
        simp only [pathComps, habs2, hsplit]
        rw [show cleanStack true ([] :: ((d :: cs'') ++ [[]])) []
            = cleanStack true ((d :: cs'') ++ [[]]) [] from by simp [cleanStack]]
        rw [cleanStack_app true [[]] (d :: cs'')]
        rw [cleanStack_plain true (d :: cs'') [] hcs']
        rw [show cleanStack true [[]] ((d :: cs'').reverse ++ [])
            = (d :: cs'').reverse ++ [] from by simp [cleanStack]]
        simp
      rw [pathComps_absString _ (pathComps_plain _ habs2), hcomps]
      exact ⟨[c], rfl⟩

/-! ## Filesystem operation lemmas -/

theorem fsLookup_insert (fs : Fs) (k : PathKey) (n : FNode) (q : PathKey) :
    fsLookup (fsInsert fs k n) q = if k = q then some n else fsLookup fs q := rfl

/-- Go `MkdirAll` only creates missing directories strictly below `done`
and along `todo`; every other key is untouched. -/
theorem mkdirPrefixes_changes :
    ∀ (todo : List (List Char)) (done : PathKey) (mode : Nat) (fs fs' : Fs),
      mkdirPrefixes fs done mode todo = Except.ok fs' →
      ∀ q, fsLookup fs' q = fsLookup fs q ∨
        (fsLookup fs q = none ∧ done <+: q ∧ done ≠ q ∧ q <+: done ++ todo)
  | [], done, mode, fs, fs', h, q => by
    simp only [mkdirPrefixes] at h
    cases h
    exact Or.inl rfl
  | c :: rest, done, mode, fs, fs', h, q => by
    simp only [mkdirPrefixes] at h
    cases hl : fsLookup fs (done ++ [c]) with
    | none =>
      rw [hl] at h
      have hrec := mkdirPrefixes_changes rest (done ++ [c]) mode
        (fsInsert fs (done ++ [c]) (FNode.dir mode)) fs' h q
      rcases hrec with hrec | ⟨hnone, hpre, hneq, hupto⟩
      · rw [hrec, fsLookup_insert]
        by_cases hq : done ++ [c] = q
        · subst hq
          rw [if_pos rfl]
          refine Or.inr ⟨hl, List.prefix_append _ _, ?_, ?_⟩
          · intro e
            have := congrArg List.length e
            simp at this
          · exact ⟨rest, by simp⟩
        · rw [if_neg hq]
          exact Or.inl rfl
      · rw [fsLookup_insert] at hnone
        by_cases hq : done ++ [c] = q
        · rw [if_pos hq] at hnone
          cases hnone
        · rw [if_neg hq] at hnone
          refine Or.inr ⟨hnone, ?_, ?_, ?_⟩
          · exact (List.prefix_append done [c]).trans hpre
          · intro e
            subst e
            have h1 := hpre.length_le
            simp at h1
          · rw [show done ++ c :: rest = (done ++ [c]) ++ rest by simp]
            exact hupto
    | some n =>
      cases n with
      | dir m =>
        rw [hl] at h
        have hrec := mkdirPrefixes_changes rest (done ++ [c]) mode fs fs' h q
        rcases hrec with hrec | ⟨hnone, hpre, hneq, hupto⟩
        · exact Or.inl hrec
        · refine Or.inr ⟨hnone, (List.prefix_append done [c]).trans hpre, ?_, ?_⟩
          · intro e
            subst e
            have h1 := hpre.length_le
            simp at h1
          · rw [show done ++ c :: rest = (done ++ [c]) ++ rest by simp]
            exact hupto
      | file m content => rw [hl] at h; cases h
      | symlink t => rw [hl] at h; cases h

theorem extractFileK_changes (fs : Fs) (k : PathKey) (mode : Nat)
    (content : List Nat) (fs' : Fs)
    (h : extractFileK fs k mode content = Except.ok fs') :
    ∀ q, q ≠ k → fsLookup fs' q = fsLookup fs q := by
  intro q hq
  simp only [extractFileK] at h
  cases hl : fsLookup fs k with
  | none =>
    rw [hl] at h
    cases h
    rw [fsLookup_insert, if_neg (fun e => hq e.symm)]
  | some n =>
    rw [hl] at h
    cases n with
    | dir m => cases h
    | file m c => cases h; rw [fsLookup_insert, if_neg (fun e => hq e.symm)]
    | symlink t => cases h; rw [fsLookup_insert, if_neg (fun e => hq e.symm)]

theorem symlinkK_changes (fs : Fs) (target : String) (k : PathKey) (fs' : Fs)
    (h : symlinkK fs target k = Except.ok fs') :
    ∀ q, q ≠ k → fsLookup fs' q = fsLookup fs q := by
  intro q hq
  simp only [symlinkK] at h
  cases hl : fsLookup fs k with
  | none =>
    rw [hl] at h
    cases h
    rw [fsLookup_insert, if_neg (fun e => hq e.symm)]
  | some n => rw [hl] at h; cases h

/-! ## Extraction safety lemmas -/

theorem clean_data (s : String) : (clean s).data = cleanL s.data := rfl

theorem goJoin_data (a b : String) : (goJoin a b).data = goJoinL a.data b.data := rfl

theorem keyOf_goJoin (a b : String) :
    keyOf (goJoin a b) = pathComps (goJoinL a.data b.data) := rfl

theorem cleanL_absString (ps : PathKey) (hps : PlainComps ps) :
    cleanL (absString ps) = absString ps := by
  rw [cleanL_of_abs _ (isAbsL_absString ps), pathComps_absString ps hps]

/-- When the containment check of `extractArchive` passes, the parent's
components lead the extraction path's components. -/
theorem check_pass_sub (parentDir : String) (ps : PathKey)
    (hp : parentDir.data = absString ps) (hps : PlainComps ps) (name : String)
    (hcheck : (!strHasPrefix (clean (goJoin parentDir name)) (clean parentDir ++ "/")
        && !(clean (goJoin parentDir name) == clean parentDir)) = false) :
    ps <+: pathComps (goJoin parentDir name).data := by
  have habsp : isAbsL parentDir.data = true := by rw [hp]; exact isAbsL_absString ps
  obtain ⟨habs, hplain⟩ := goJoinL_abs parentDir.data name.data habsp
  have hclean_join : (clean (goJoin parentDir name)).data
      = absString (pathComps (goJoinL parentDir.data name.data)) := by
    show cleanL (goJoinL parentDir.data name.data) = _
    conv_lhs => rw [habs]
    exact cleanL_absString _ hplain
  have hclean_par : (clean parentDir).data = absString ps := by
    rw [clean_data, hp]
    exact cleanL_absString ps hps
  show ps <+: pathComps (goJoinL parentDir.data name.data)
  by_cases hA : strHasPrefix (clean (goJoin parentDir name)) (clean parentDir ++ "/") = true
  · have hpre : ((clean parentDir ++ "/").data) <+: (clean (goJoin parentDir name)).data :=
      (hasPre_iff _ _).mp hA
    rw [string_data_app, hclean_par, hclean_join] at hpre
    exact absStr_pre ps _ hps hplain (by simpa using hpre)
  · by_cases hB : (clean (goJoin parentDir name) == clean parentDir) = true
    · have heq : clean (goJoin parentDir name) = clean parentDir := eq_of_beq hB
      have hd : absString (pathComps (goJoinL parentDir.data name.data))
          = absString ps := by
        rw [← hclean_join, ← hclean_par, heq]
      have hco := congrArg pathComps hd
      rw [pathComps_absString _ hplain, pathComps_absString ps hps] at hco
      rw [hco]
    · exfalso
      rw [Bool.not_eq_true] at hA hB
      rw [hA, hB] at hcheck
      simp at hcheck

/-- A header whose name escapes the parent makes the containment check
fire. -/
theorem escape_check (parentDir : String) (ps : PathKey)
    (hp : parentDir.data = absString ps) (hps : PlainComps ps) (name : String)
    (hesc : escapesParent parentDir name) :
    (!strHasPrefix (clean (goJoin parentDir name)) (clean parentDir ++ "/")
        && !(clean (goJoin parentDir name) == clean parentDir)) = true := by
  cases hb : (!strHasPrefix (clean (goJoin parentDir name)) (clean parentDir ++ "/")
      && !(clean (goJoin parentDir name) == clean parentDir)) with
  | true => rfl
  | false =>
    exfalso
    have hsub := check_pass_sub parentDir ps hp hps name hb
    apply hesc
    rw [hp, pathComps_absString ps hps]
    exact hsub

theorem changed_key_contra (ps : PathKey) (fs : Fs)
    (hanc : ∀ r, r <+: ps → ∃ m, fsLookup fs r = some (FNode.dir m))
    (qs q : PathKey) (hsubP : ps <+: qs)
    (hnone : fsLookup fs q = none) (hsub : q <+: qs)
    (hq : ¬ strictlyInside ps q) : False := by
  rcases List.prefix_or_prefix_of_prefix hsub hsubP with h1 | h1
  · obtain ⟨m, hm⟩ := hanc q h1
    rw [hm] at hnone
    cases hnone
  · have hpq : ps = q := by
      by_contra hne
      exact hq ⟨h1, hne⟩
    subst hpq
    obtain ⟨m, hm⟩ := hanc ps (List.prefix_refl ps)
    rw [hm] at hnone
    cases hnone

theorem mkdirAll_outside (ps qs k : PathKey) (mode : Nat) (fs fsa : Fs)
    (hanc : ∀ r, r <+: ps → ∃ m, fsLookup fs r = some (FNode.dir m))
    (hsubP : ps <+: qs) (hk : k <+: qs)
    (hmk : mkdirAllK fs k mode = Except.ok fsa) :
    ∀ q, ¬ strictlyInside ps q → fsLookup fsa q = fsLookup fs q := by
  intro q hq
  rcases mkdirPrefixes_changes k [] mode fs fsa hmk q with h1 | ⟨hnone, _, _, hsub⟩
  · exact h1
  · exact absurd (hsub.trans (by simpa using hk))
      (fun hc => changed_key_contra ps fs hanc qs q hsubP hnone hc hq)

theorem strict_of_sub_neq (ps qs : PathKey) (h1 : ps <+: qs) (hq : ¬ strictlyInside ps qs) :
    ps = qs := by
  by_contra hne
  exact hq ⟨h1, hne⟩

/-- A successful extraction step never touches a key that is not
strictly inside the parent directory (lexical model; ancestors of the
parent are assumed present as directories). -/
theorem extractEntry_outside_inv (parentDir : String) (ps : PathKey)
    (hp : parentDir.data = absString ps) (hps : PlainComps ps)
    (fs fs' : Fs)
    (hanc : ∀ r, r <+: ps → ∃ m, fsLookup fs r = some (FNode.dir m))
    (h : Header) (hok : extractEntry parentDir fs h = (fs', none)) :
    ∀ q, ¬ strictlyInside ps q → fsLookup fs' q = fsLookup fs q := by
  intro q hq
  have habsp : isAbsL parentDir.data = true := by rw [hp]; exact isAbsL_absString ps
  obtain ⟨habs, hplain⟩ := goJoinL_abs parentDir.data h.name.data habsp
  have hkey : keyOf (goJoin parentDir h.name)
      = pathComps (goJoinL parentDir.data h.name.data) := rfl
  have hdirkey : keyOf (goDir (goJoin parentDir h.name)) <+:
      pathComps (goJoinL parentDir.data h.name.data) := by
    show pathComps (dirL (goJoinL parentDir.data h.name.data)) <+: _
    conv_lhs => rw [habs]
    conv_rhs => rw [habs]
    rw [pathComps_absString _ hplain]
    exact dirComps_sub _ hplain
  simp only [extractEntry] at hok
  split at hok
  · simp at hok
  · rename_i hcheck
    rw [Bool.not_eq_true] at hcheck
    have hsubP : ps <+: pathComps (goJoinL parentDir.data h.name.data) :=
      check_pass_sub parentDir ps hp hps h.name hcheck
    split at hok
    · -- directory header: MkdirAll(extractPath, mode)
      split at hok
      · rename_i fsa hmk
        simp only [Prod.mk.injEq] at hok
        rw [← hok.1]
        exact mkdirAll_outside ps _ _ h.mode fs fsa hanc hsubP (by rw [hkey]) hmk q hq
      · simp at hok
    · split at hok
      · -- regular file header
        split at hok
        · simp at hok
        · rename_i fsa hmk
          have hmkout := mkdirAll_outside ps _ _ 493 fs fsa hanc hsubP hdirkey hmk
          split at hok
          · simp at hok
          · rename_i fsb hfile
            simp only [Prod.mk.injEq] at hok
            rw [← hok.1]
            by_cases hqk : q = keyOf (goJoin parentDir h.name)
            · exfalso
              have h1 : ps <+: q := by rw [hqk, hkey]; exact hsubP
              have hpq : ps = q := strict_of_sub_neq ps q h1 hq
              obtain ⟨m, hm⟩ := hanc ps (List.prefix_refl ps)
              have hlq : fsLookup fsa q = some (FNode.dir m) := by
                rw [hmkout q hq, ← hpq]
                exact hm
              rw [← hqk] at hfile
              simp only [extractFileK] at hfile
              rw [hlq] at hfile
              simp at hfile
            · rw [extractFileK_changes fsa _ h.mode h.content fsb hfile q hqk]
              exact hmkout q hq
      · split at hok
        · -- symlink header
          split at hok
          · simp at hok
          · rename_i fsa hmk
            have hmkout := mkdirAll_outside ps _ _ 493 fs fsa hanc hsubP hdirkey hmk
            split at hok
            · simp at hok
            · rename_i fsb hlink
              simp only [Prod.mk.injEq] at hok
              rw [← hok.1]
              by_cases hqk : q = keyOf (goJoin parentDir h.name)
              · exfalso
                have h1 : ps <+: q := by rw [hqk, hkey]; exact hsubP
                have hpq : ps = q := strict_of_sub_neq ps q h1 hq
                obtain ⟨m, hm⟩ := hanc ps (List.prefix_refl ps)
                have hlq : fsLookup fsa q = some (FNode.dir m) := by
                  rw [hmkout q hq, ← hpq]
                  exact hm
                rw [← hqk] at hlink
                simp only [symlinkK] at hlink
                rw [hlq] at hlink
                simp at hlink
              · rw [symlinkK_changes fsa h.linkname _ fsb hlink q hqk]
                exact hmkout q hq
        · -- unknown type flag: silently skipped
          simp only [Prod.mk.injEq] at hok
          rw [← hok.1]

theorem extractEntries_app (parentDir : String) :
    ∀ (pre rest : List Header) (fs fs₁ : Fs),
      extractEntries parentDir pre fs = (fs₁, none) →
      extractEntries parentDir (pre ++ rest) fs = extractEntries parentDir rest fs₁
  | [], rest, fs, fs₁, hpre => by
    simp only [extractEntries] at hpre
    cases hpre
    rfl
  | h :: pre, rest, fs, fs₁, hpre => by
    simp only [extractEntries] at hpre ⊢
    cases hstep : extractEntry parentDir fs h with
    | mk fsa err =>
      rw [hstep] at hpre
      cases err with
      | none => exact extractEntries_app parentDir pre rest fsa fs₁ hpre
      | some e => simp at hpre

/-- The whole header loop, run successfully, leaves every key outside
the parent directory untouched. -/
theorem extractEntries_outside (parentDir : String) (ps : PathKey)
    (hp : parentDir.data = absString ps) (hps : PlainComps ps) :
    ∀ (pre : List Header) (fs fs₁ : Fs),
      (∀ r, r <+: ps → ∃ m, fsLookup fs r = some (FNode.dir m)) →
      extractEntries parentDir pre fs = (fs₁, none) →
      ∀ q, ¬ strictlyInside ps q → fsLookup fs₁ q = fsLookup fs q
  | [], fs, fs₁, _, hpre, q, _ => by
    simp only [extractEntries] at hpre
    cases hpre
    rfl
  | h :: pre, fs, fs₁, hanc, hpre, q, hq => by
    simp only [extractEntries] at hpre
    cases hstep : extractEntry parentDir fs h with
    | mk fsa err =>
      rw [hstep] at hpre
      cases err with
      | some e => simp at hpre
      | none =>
        have hstepout := extractEntry_outside_inv parentDir ps hp hps fs fsa hanc h hstep
        have hanc' : ∀ r, r <+: ps → ∃ m, fsLookup fsa r = some (FNode.dir m) := by
          intro r hr
          obtain ⟨m, hm⟩ := hanc r hr
          refine ⟨m, ?_⟩
          rw [hstepout r ?_]
          · exact hm
          · intro hstrict
            have : r = ps := pre_antisymm hr hstrict.1
            exact hstrict.2 this.symm
        have := extractEntries_outside parentDir ps hp hps pre fsa fs₁ hanc' hpre q hq
        rw [this, hstepout q hq]

/-- Claim C1: If the headers before `bad` extract without error and
`bad`'s name, joined to the parent directory of the target and cleaned,
resolves outside that parent directory, then `extractArchive` stops at
`bad` with the `illegal file path` error, processes none of the
remaining entries, leaves the entries already extracted as-is, and — as
long as the parent directory and its ancestors existed as directories —
has created or modified nothing outside the parent directory.  (Lexical
filesystem model: symlink nodes are inert, cf. spec §9.) -/
theorem extract_aborts_on_traversal (targetPath : String) (ps : PathKey)
    (hp : (goDir targetPath).data = absString ps) (hps : PlainComps ps)
    (fs₀ fs₁ : Fs)
    (hanc : ∀ r, r <+: ps → ∃ m, fsLookup fs₀ r = some (FNode.dir m))
    (pre post : List Header) (bad : Header)
    (hpre : extractEntries (goDir targetPath) pre fs₀ = (fs₁, none))
    (hbad : escapesParent (goDir targetPath) bad.name) :
    extractArchive targetPath (pre ++ bad :: post) fs₀
        = (fs₁, some ("illegal file path in archive: " ++ bad.name))
      ∧ ∀ q, ¬ strictlyInside ps q → fsLookup fs₁ q = fsLookup fs₀ q := by
  constructor
  · show extractEntries (goDir targetPath) (pre ++ bad :: post) fs₀ = _
    rw [extractEntries_app (goDir targetPath) pre (bad :: post) fs₀ fs₁ hpre]
    have hfire := escape_check (goDir targetPath) ps hp hps bad.name hbad
    simp only [extractEntries, extractEntry]
    rw [hfire]
    simp
  · exact extractEntries_outside (goDir targetPath) ps hp hps pre fs₀ fs₁ hanc hpre

theorem extract_aborts_on_traversal_witness :
    extractArchive "/home/u/proj"
        [Header.mk "proj" '5' 493 "" [],
         Header.mk "../evil" '0' 420 "" [104],
         Header.mk "x" '0' 420 "" []]
        c1Fs0
      = (c1Fs1, some ("illegal file path in archive: " ++ "../evil")) := by
  have h := extract_aborts_on_traversal "/home/u/proj" [['h', 'o', 'm', 'e'], ['u']]
    (by decide) (by decide) c1Fs0 c1Fs1
    (by
      intro r hr
      have hmem : r ∈ [['h', 'o', 'm', 'e'], ['u']].inits := (List.mem_inits _ _).mpr hr
      simp only [List.inits] at hmem
      simp at hmem
      rcases hmem with hmem | hmem | hmem <;> subst hmem <;> exact ⟨493, by decide⟩)
    [Header.mk "proj" '5' 493 "" []] [Header.mk "x" '0' 420 "" []]
    (Header.mk "../evil" '0' 420 "" [104])
    (by decide) (by decide)
  exact h.1

/-- Go `filepath.Dir` drops exactly the last component of a cleaned
absolute path. -/
theorem dirL_absString (cs' : List (List Char)) (c : List Char)
    (h : PlainComps (cs' ++ [c])) : dirL (absString (cs' ++ [c])) = absString cs' := by
  have hc : PlainComp c := h c (by simp)
  have hcs' : PlainComps cs' := fun e he => h e (by simp [he])
  cases cs' with
  | nil =>
    have h1 : absString ([] ++ [c]) = [] ++ '/' :: c := by simp [absString, joinComps]
    rw [h1, dirL, upToLS_app [] c hc.2.2.2]
    rw [show ([] : List Char) ++ ['/'] = ['/'] from rfl]
    rw [show cleanL ['/'] = absString (pathComps ['/']) from cleanL_of_abs ['/'] rfl]
    rw [pathComps_root]
  | cons d cs'' =>
    have hjoin : joinComps ((d :: cs'') ++ [c]) = joinComps (d :: cs'') ++ '/' :: c := by
      rw [joinComps_app (d :: cs'') [c] (by simp) (by simp)]
      simp [joinComps]
    have habs : absString ((d :: cs'') ++ [c])
        = ('/' :: joinComps (d :: cs'')) ++ '/' :: c := by
      show '/' :: joinComps ((d :: cs'') ++ [c]) = _
      rw [hjoin]
      rfl
    rw [habs, dirL, upToLS_app _ c hc.2.2.2]
    have habs2 : isAbsL (('/' :: joinComps (d :: cs'')) ++ ['/']) = true := rfl
    rw [cleanL_of_abs _ habs2]
    have hsplit : splitSlash (('/' :: joinComps (d :: cs'')) ++ ['/'])
        = [] :: ((d :: cs'') ++ [[]]) := by
      rw [show ('/' :: joinComps (d :: cs'')) ++ ['/']
          = '/' :: (joinComps (d :: cs'') ++ '/' :: []) by simp]
      rw [show splitSlash ('/' :: (joinComps (d :: cs'') ++ '/' :: []))
          = [] :: splitSlash (joinComps (d :: cs'') ++ '/' :: []) from by
        simp [splitSlash]]
      rw [splitSlash_app]
      rw [splitSlash_joinComps (d :: cs'') (by simp)
        (fun e he => (hcs' e he).2.2.2)]
      rfl
    have hcomps : pathComps (('/' :: joinComps (d :: cs'')) ++ ['/']) = d :: cs'' := by
      simp only [pathComps, habs2, hsplit]
      rw [show cleanStack true ([] :: ((d :: cs'') ++ [[]])) []
          = cleanStack true ((d :: cs'') ++ [[]]) [] from by simp [cleanStack]]
      rw [cleanStack_app true [[]] (d :: cs'')]
      rw [cleanStack_plain true (d :: cs'') [] hcs']
      rw [show cleanStack true [[]] ((d :: cs'').reverse ++ [])
          = (d :: cs'').reverse ++ [] from by simp [cleanStack]]
      simp
    rw [hcomps]

/-- Resolved components of a join whose right side has no `".."`
components: the parent's components followed by the name's surviving
components. -/
theorem goJoinL_nodots (ps : PathKey) (hps : PlainComps ps) (hne : ps ≠ [])
    (name : List Char) (hnn : name ≠ [])
    (hnodots : ∀ c ∈ splitSlash name, c ≠ ['.', '.']) :
    pathComps (goJoinL (absString ps) name) = ps ++ dropDots (splitSlash name) := by
  have habs : isAbsL (absString ps) = true := isAbsL_absString ps
  have h1 : goJoinL (absString ps) name = cleanL (absString ps ++ '/' :: name) := by
    simp [goJoinL, isAbsL_ne_nil _ habs, hnn]
  have habs2 : isAbsL (absString ps ++ '/' :: name) = true := isAbsL_app _ _ habs
  rw [h1, pathComps_cleanL _ habs2]
  have hsp : splitSlash (absString ps ++ '/' :: name)
      = ([] :: ps) ++ splitSlash name := by
    rw [splitSlash_app]
    congr 1
    show splitSlash ('/' :: joinComps ps) = [] :: ps
    rw [show splitSlash ('/' :: joinComps ps) = [] :: splitSlash (joinComps ps) from by
      simp [splitSlash]]
    rw [splitSlash_joinComps ps hne (fun e he => (hps e he).2.2.2)]
  simp only [pathComps, habs2, hsp]
  rw [show ([] :: ps) ++ splitSlash name = [] :: (ps ++ splitSlash name) from rfl]
  rw [show cleanStack true ([] :: (ps ++ splitSlash name)) []
      = cleanStack true (ps ++ splitSlash name) [] from by simp [cleanStack]]
  rw [cleanStack_app true (splitSlash name) ps []]
  rw [cleanStack_plain true ps [] hps]
  rw [cleanStack_nodots true (splitSlash name) (ps.reverse ++ []) hnodots]
  simp

/-- On a filesystem whose nodes are all directories, `MkdirAll`
succeeds and records the full path, with the requested mode when the
path was absent. -/
theorem mkdirPrefixes_creates :
    ∀ (todo : List (List Char)) (done : PathKey) (mode : Nat) (fs : Fs),
      todo ≠ [] →
      (∀ k n, fsLookup fs k = some n → ∃ m, n = FNode.dir m) →
      fsLookup fs (done ++ todo) = none →
      ∃ fs', mkdirPrefixes fs done mode todo = Except.ok fs'
        ∧ fsLookup fs' (done ++ todo) = some (FNode.dir mode)
  | [], _, _, _, hne, _, _ => absurd rfl hne
  | c :: rest, done, mode, fs, _, hdirs, hnone => by
    simp only [mkdirPrefixes]
    cases hrest : rest with
    | nil =>
      subst hrest
      cases hl : fsLookup fs (done ++ [c]) with
      | some n =>
        exfalso
        rw [hl] at hnone
        cases hnone
      | none =>
        refine ⟨fsInsert fs (done ++ [c]) (FNode.dir mode), rfl, ?_⟩
        rw [fsLookup_insert]
        rw [if_pos (by simp)]
    | cons r rest' =>
      subst hrest
      cases hl : fsLookup fs (done ++ [c]) with
      | some n =>
        obtain ⟨m, hm⟩ := hdirs _ n hl
        subst hm
        have hrec := mkdirPrefixes_creates (r :: rest') (done ++ [c]) mode fs
          (by simp) hdirs
          (by rw [show (done ++ [c]) ++ (r :: rest') = done ++ (c :: r :: rest') by simp]
              exact hnone)
        obtain ⟨fs', hok, hlook⟩ := hrec
        refine ⟨fs', hok, ?_⟩
        rw [show done ++ (c :: r :: rest') = (done ++ [c]) ++ (r :: rest') by simp]
        exact hlook
      | none =>
        have hdirs1 : ∀ k n, fsLookup (fsInsert fs (done ++ [c]) (FNode.dir mode)) k
            = some n → ∃ m, n = FNode.dir m := by
          intro k n hk
          rw [fsLookup_insert] at hk
          by_cases he : done ++ [c] = k
          · rw [if_pos he] at hk
            cases hk
            exact ⟨mode, rfl⟩
          · rw [if_neg he] at hk
            exact hdirs k n hk
        have hnone1 : fsLookup (fsInsert fs (done ++ [c]) (FNode.dir mode))
            ((done ++ [c]) ++ (r :: rest')) = none := by
          rw [fsLookup_insert]
          rw [if_neg (by
            intro he
            have := congrArg List.length he
            simp at this)]
          rw [show (done ++ [c]) ++ (r :: rest') = done ++ (c :: r :: rest') by simp]
          exact hnone
        have hrec := mkdirPrefixes_creates (r :: rest') (done ++ [c]) mode
          (fsInsert fs (done ++ [c]) (FNode.dir mode))
          (by simp) hdirs1 hnone1
        obtain ⟨fs', hok, hlook⟩ := hrec
        refine ⟨fs', hok, ?_⟩
        rw [show done ++ (c :: r :: rest') = (done ++ [c]) ++ (r :: rest') by simp]
        exact hlook

/-- Claim C4: The containment boundary enforced by `extractArchive` is the
parent directory of the normalized location path, not the location
itself: a directory header whose name has no `".."` components but
whose first component differs from the location's base name passes the
check and is created inside the parent yet outside the location's own
subtree, with no error.  (Filesystem hypothesis: all existing nodes are
directories and the named key is absent.) -/
theorem extract_boundary_is_parent (targetPath : String) (ps : PathKey)
    (bn : List Char)
    (htarget : targetPath.data = absString (ps ++ [bn]))
    (hplain : PlainComps (ps ++ [bn])) (hne : ps ≠ [])
    (fs : Fs) (hdirs : ∀ k n, fsLookup fs k = some n → ∃ m, n = FNode.dir m)
    (hdr : Header) (hflag : hdr.typeflag = tarTypeDir)
    (hnodots : ∀ c ∈ splitSlash hdr.name.data, c ≠ ['.', '.'])
    (c₀ : List Char) (restN : List (List Char))
    (hsplit : dropDots (splitSlash hdr.name.data) = c₀ :: restN)
    (hdiff : c₀ ≠ bn)
    (hnotthere : fsLookup fs (ps ++ c₀ :: restN) = none)
    (fs' : Fs) (err : Option String)
    (hrun : extractArchive targetPath [hdr] fs = (fs', err)) :
    err = none
      ∧ fsLookup fs' (ps ++ c₀ :: restN) = some (FNode.dir hdr.mode)
      ∧ strictlyInside ps (ps ++ c₀ :: restN)
      ∧ ¬ (ps ++ [bn]) <+: (ps ++ c₀ :: restN) := by
  have hps : PlainComps ps := fun e he => hplain e (by simp [he])
  have hp : (goDir targetPath).data = absString ps := by
    show dirL targetPath.data = absString ps
    rw [htarget]
    exact dirL_absString ps bn hplain
  have hnn : hdr.name.data ≠ [] := by
    intro he
    rw [he] at hsplit
    simp [splitSlash, dropDots] at hsplit
  -- the resolved components of the extraction path
  have hcomps : pathComps (goJoinL (goDir targetPath).data hdr.name.data)
      = ps ++ c₀ :: restN := by
    rw [hp, goJoinL_nodots ps hps hne hdr.name.data hnn hnodots, hsplit]
  have hstrict : strictlyInside ps (ps ++ c₀ :: restN) := by
    refine ⟨⟨c₀ :: restN, rfl⟩, ?_⟩
    intro he
    have := congrArg List.length he
    simp at this
  have hnotloc : ¬ (ps ++ [bn]) <+: (ps ++ c₀ :: restN) := by
    intro hpre
    have h1 : [bn] <+: c₀ :: restN := (List.prefix_append_right_inj ps).mp hpre
    have h2 : bn = c₀ := (List.cons_prefix_cons.mp h1).1
    exact hdiff h2.symm
  -- the check passes: string-level containment from component containment
  have habsp : isAbsL (goDir targetPath).data = true := by
    rw [hp]; exact isAbsL_absString ps
  obtain ⟨habs, hplain2⟩ := goJoinL_abs (goDir targetPath).data hdr.name.data habsp
  have hcheckpass : strHasPrefix (clean (goJoin (goDir targetPath) hdr.name))
      (clean (goDir targetPath) ++ "/") = true := by
    apply (hasPre_iff _ _).mpr
    have hclean_join : (clean (goJoin (goDir targetPath) hdr.name)).data
        = absString (ps ++ c₀ :: restN) := by
      show cleanL (goJoinL (goDir targetPath).data hdr.name.data) = _
      conv_lhs => rw [habs]
      rw [cleanL_absString _ hplain2, ← hcomps]
    have hclean_par : (clean (goDir targetPath) ++ "/").data
        = absString ps ++ ['/'] := by
      rw [string_data_app, clean_data, hp, cleanL_absString ps hps]
    rw [show (clean (goDir targetPath) ++ "/").data = absString ps ++ ['/'] from hclean_par]
    rw [hclean_join]
    exact absStr_pre_conv ps (ps ++ c₀ :: restN) hne hstrict.1 hstrict.2
  -- the single-header run: check passes, MkdirAll succeeds
  have hkey : keyOf (goJoin (goDir targetPath) hdr.name) = ps ++ c₀ :: restN := hcomps
  obtain ⟨fsm, hmk, hlook⟩ := mkdirPrefixes_creates (ps ++ c₀ :: restN) [] hdr.mode fs
    (by simp) hdirs (by simpa using hnotthere)
  have hrun2 : extractArchive targetPath [hdr] fs = (fsm, none) := by
    show extractEntries (goDir targetPath) [hdr] fs = (fsm, none)
    simp only [extractEntries, extractEntry]
    rw [hcheckpass]
    simp only [Bool.not_true, Bool.false_and, Bool.false_eq_true, if_false]
    rw [if_pos (by rw [hflag]; decide)]
    rw [hkey]
    rw [show mkdirAllK fs (ps ++ c₀ :: restN) hdr.mode = Except.ok fsm from hmk]
  rw [hrun2] at hrun
  injection hrun with h1 h2
  subst h1
  subst h2
  exact ⟨rfl, by simpa using hlook, hstrict, hnotloc⟩

theorem extract_boundary_is_parent_witness :
    (none : Option String) = none
      ∧ fsLookup c4Fs1
          ([['h', 'o', 'm', 'e'], ['u']] ++
            ['s', 'i', 'b', 'l', 'i', 'n', 'g'] :: [['f', 'i', 'l', 'e']])
          = some (FNode.dir 365)
      ∧ strictlyInside [['h', 'o', 'm', 'e'], ['u']]
          ([['h', 'o', 'm', 'e'], ['u']] ++
            ['s', 'i', 'b', 'l', 'i', 'n', 'g'] :: [['f', 'i', 'l', 'e']])
      ∧ ¬ ([['h', 'o', 'm', 'e'], ['u']] ++ [['p', 'r', 'o', 'j']]) <+:
          ([['h', 'o', 'm', 'e'], ['u']] ++
            ['s', 'i', 'b', 'l', 'i', 'n', 'g'] :: [['f', 'i', 'l', 'e']]) := by
  refine extract_boundary_is_parent "/home/u/proj" [['h', 'o', 'm', 'e'], ['u']]
    ['p', 'r', 'o', 'j'] (by decide) (by decide) (by decide) c4Fs0
    ?_ (Header.mk "sibling/file" '5' 365 "" []) rfl (by decide)
    ['s', 'i', 'b', 'l', 'i', 'n', 'g'] [['f', 'i', 'l', 'e']] (by decide)
    (by decide) (by decide) c4Fs1 none (by decide)
  intro k n hk
  simp only [c4Fs0, fsLookup] at hk
  split at hk
  · cases hk; exact ⟨493, rfl⟩
  · split at hk
    · cases hk; exact ⟨493, rfl⟩
    · split at hk
      · cases hk; exact ⟨493, rfl⟩
      · cases hk

/-- Claim C10: `normalizePath` expands the home shorthand exactly when the
input starts with the two characters `"~/"`; `"~"` alone and `"~x…"`
are not home-expanded but absolutized against the working directory;
and an error arises only from a failed home lookup on a `"~/"` input or
from failed absolutization (a failed `Getwd` on a relative input). -/
theorem normalizePath_spec (env : OsEnv) (p : String) :
    (∀ cs, p.data = '~' :: '/' :: cs →
        normalizePath env p = (match env.home with
          | none => Except.error PathError.homeDirFailed
          | some home => goAbs env (goJoin home (String.mk cs))))
    ∧ (p = "~" → normalizePath env p =
        (match env.cwd with
         | none => Except.error PathError.absFailed
         | some wd => Except.ok (goJoin wd p)))
    ∧ (∀ c cs, p.data = '~' :: c :: cs → c ≠ '/' → normalizePath env p =
        (match env.cwd with
         | none => Except.error PathError.absFailed
         | some wd => Except.ok (goJoin wd p)))
    ∧ (∀ e, normalizePath env p = Except.error e →
        ((∃ cs, p.data = '~' :: '/' :: cs) ∧ env.home = none) ∨ env.cwd = none) := by
  have hmk : p = String.mk p.data := rfl
  refine ⟨?_, ?_, ?_, ?_⟩
  · intro cs hcs
    conv_lhs => rw [hmk, hcs]
    rfl
  · intro hp
    subst hp
    show goAbs env "~" = _
    simp only [goAbs, goIsAbs]
    rw [if_neg (by decide)]
  · intro c cs hcs hc
    have hnab : isAbsL p.data = false := by
      rw [hcs]
      simp [isAbsL]
    have hstep : normalizePath env p = goAbs env p := by
      conv_lhs => rw [hmk, hcs]
      simp only [normalizePath]
      split
      · rename_i heq
        injection heq with h1 h2
        injection h2 with h3 h4
        exact absurd h3 hc
      · rw [← hcs, ← hmk]
    rw [hstep]
    simp only [goAbs, goIsAbs, hnab]
    rw [if_neg (by simp)]
  · intro e herr
    by_cases hts : ∃ cs, p.data = '~' :: '/' :: cs
    · obtain ⟨cs, hcs⟩ := hts
      rw [show normalizePath env p
          = (match env.home with
             | none => Except.error PathError.homeDirFailed
             | some home => goAbs env (goJoin home (String.mk cs))) from by
        conv_lhs => rw [hmk, hcs]
        rfl] at herr
      cases hh : env.home with
      | none => exact Or.inl ⟨⟨cs, hcs⟩, rfl⟩
      | some home =>
        rw [hh] at herr
        simp only [goAbs] at herr
        split at herr
        · cases herr
        · refine Or.inr ?_
          cases hw : env.cwd with
          | none => rfl
          | some wd => rw [hw] at herr; cases herr
    · have hstep : normalizePath env p = goAbs env p := by
        conv_lhs => rw [hmk]
        simp only [normalizePath]
        split
        · rename_i heq
          exact absurd ⟨_, heq⟩ hts
        · rw [← hmk]
      rw [hstep] at herr
      simp only [goAbs] at herr
      split at herr
      · cases herr
      · refine Or.inr ?_
        cases hw : env.cwd with
        | none => rfl
        | some wd => rw [hw] at herr; cases herr

theorem normalizePath_spec_witness :
    normalizePath ⟨some "/home/u", some "/w"⟩ "~/x" = Except.ok "/home/u/x"
      ∧ normalizePath ⟨some "/home/u", some "/w"⟩ "~" = Except.ok "/w/~"
      ∧ normalizePath ⟨some "/home/u", some "/w"⟩ "~x" = Except.ok "/w/~x" := by
  refine ⟨?_, ?_, ?_⟩
  · rw [(normalizePath_spec ⟨some "/home/u", some "/w"⟩ "~/x").1 ['x'] rfl]
    decide
  · rw [(normalizePath_spec ⟨some "/home/u", some "/w"⟩ "~").2.1 rfl]
    decide
  · rw [(normalizePath_spec ⟨some "/home/u", some "/w"⟩ "~x").2.2.1 'x' [] rfl
      (by decide)]
    decide

/-- Claim C5: `ArchiveWriter.Close` releases the layers innermost-first
(tar container, then gzip compressor, then the file), returns nil only
when every layer closed cleanly, and aggregates the close errors: every
failing layer's error — first, middle, and last alike — appears in the
surfaced error, in layer order. -/
theorem archiveWriterClose_aggregates (t g f : Option String) :
    (archiveWriterClose ⟨t, g, f⟩).1
        = [CloseLayer.container, CloseLayer.compressor, CloseLayer.file]
      ∧ ((archiveWriterClose ⟨t, g, f⟩).2 = none ↔ t = none ∧ g = none ∧ f = none)
      ∧ (∀ e, t = some e ∨ g = some e ∨ f = some e →
          ∃ l, (archiveWriterClose ⟨t, g, f⟩).2 = some l ∧ e ∈ l)
      ∧ (archiveWriterClose ⟨t, g, f⟩).2
          = errorsJoin [t, g, f] := by
  refine ⟨rfl, ?_, ?_, rfl⟩
  · cases t <;> cases g <;> cases f <;>
      simp [archiveWriterClose, errorsJoin, List.filterMap]
  · intro e he
    cases t <;> cases g <;> cases f <;>
      simp_all [archiveWriterClose, errorsJoin, List.filterMap] <;>
      rcases he with he | he | he <;> simp_all

theorem archiveWriterClose_aggregates_witness :
    (archiveWriterClose ⟨some "tar: broken pipe", none, some "file: bad fd"⟩).1
        = [CloseLayer.container, CloseLayer.compressor, CloseLayer.file]
      ∧ (archiveWriterClose
          ⟨some "tar: broken pipe", none, some "file: bad fd"⟩).2
          = some ["tar: broken pipe", "file: bad fd"] := by
  refine ⟨(archiveWriterClose_aggregates (some "tar: broken pipe") none
    (some "file: bad fd")).1, ?_⟩
  have h := (archiveWriterClose_aggregates (some "tar: broken pipe") none
    (some "file: bad fd")).2.2.2
  rw [h]
  decide

/-- Claim C9, counterexample: Two distinct authored location paths,
`"/a//b"` and `"/a/b"`, map to the same archive path in the same run
(both normalize to `"/a/b"`); after the first location's archive has
been created, opening the archive writer for the second location does
not fail — `os.Create` silently truncates the existing archive. -/
theorem collision_overwrite_counterexample :
    ("/a//b" : String) ≠ "/a/b"
      ∧ backupArchivePath c9Env "/backup" "/a//b" = Except.ok c9ArchivePath
      ∧ backupArchivePath c9Env "/backup" "/a/b" = Except.ok c9ArchivePath
      ∧ newArchiveWriter c9Fs0 c9ArchivePath = Except.ok c9Fs1
      ∧ newArchiveWriter c9Fs1 c9ArchivePath
          = Except.ok (fsInsert c9Fs1 (keyOf c9ArchivePath) (FNode.file 438 [])) := by
  have hn1 : normalizePath c9Env "/a//b" = Except.ok "/a/b" := by decide
  have hn2 : normalizePath c9Env "/a/b" = Except.ok "/a/b" := by decide
  refine ⟨by decide, ?_, ?_, by decide, by decide⟩
  · simp only [backupArchivePath, hn1, c9ArchivePath]
  · simp only [backupArchivePath, hn2, c9ArchivePath]

/-- Claim C9, amended: When the archive path computed for a location
already exists as a file — in particular when a second location of the
same run maps to the same archive filename — `newArchiveWriter`
succeeds and truncates the existing archive in place instead of failing
fast. -/
theorem collision_overwrites (fs : Fs) (path : String)
    (hne : keyOf path ≠ [])
    (hparent : ∃ m, fsLookup fs (keyOf (goDir path)) = some (FNode.dir m))
    (hfile : ∃ m c, fsLookup fs (keyOf path) = some (FNode.file m c)) :
    ∃ m c, fsLookup fs (keyOf path) = some (FNode.file m c)
      ∧ newArchiveWriter fs path
          = Except.ok (fsInsert fs (keyOf path) (FNode.file m [])) := by
  obtain ⟨pm, hpm⟩ := hparent
  obtain ⟨m, c, hm⟩ := hfile
  refine ⟨m, c, hm, ?_⟩
  simp only [newArchiveWriter, osCreate, if_neg hne, hpm, hm]

theorem collision_overwrites_witness :
    newArchiveWriter c9Fs1 c9ArchivePath
        = Except.ok (fsInsert c9Fs1 (keyOf c9ArchivePath) (FNode.file 438 [])) := by
  obtain ⟨m, c, hm, hw⟩ := collision_overwrites c9Fs1 c9ArchivePath
    (by decide) ⟨493, by decide⟩ ⟨438, [], by decide⟩
  have hconc : fsLookup c9Fs1 (keyOf c9ArchivePath) = some (FNode.file 438 []) := by
    decide
  rw [hconc] at hm
  injection hm with h1
  injection h1 with h2 h3
  rw [← h2] at hw
  exact hw

/-- Claim C3, the code at the failing input: `backupLocation` in the part_003 revision normalizes
the location path before generating the archive filename, while
`restoreLocation` generates it from the authored path; for `"~/x"` the
two runs therefore compute different archive paths and the restore
cannot find the archive the backup wrote.  (`restoreLocation`'s own
comment says the hash "must match the hash used during backup
creation".) -/
theorem filename_basis_mismatch :
    normalizePath ⟨some "/home/u", some "/"⟩ "~/x" = Except.ok "/home/u/x"
      ∧ backupArchivePath ⟨some "/home/u", some "/"⟩ "/backup" "~/x"
          = Except.ok (goJoin "/backup" (generateFilename "/home/u/x"))
      ∧ restoreArchivePath "/backup" "~/x"
          = goJoin "/backup" (generateFilename "~/x")
      ∧ goJoin "/backup" (generateFilename "/home/u/x")
          ≠ goJoin "/backup" (generateFilename "~/x") := by
  have hn : normalizePath ⟨some "/home/u", some "/"⟩ "~/x" = Except.ok "/home/u/x" := by
    decide
  refine ⟨hn, ?_, rfl, by decide⟩
  simp only [backupArchivePath, hn]

/-- The scan's two accumulators, index and total size, agree with the
walk record: the index lists exactly the walked entries' paths, and the
size is the sum of the non-directory entries' sizes. -/
theorem scanForest_entries (ig : List String) :
    ∀ (p : String) (f : List FTree),
      (scanForest ig p f).1 = (entriesForest ig p f).map WalkedEntry.path
        ∧ (scanForest ig p f).2
            = ((entriesForest ig p f).map
                (fun e => if e.isDir then 0 else e.size)).sum
  | p, [] => by simp [scanForest, entriesForest]
  | p, FTree.file n m c :: ts => by
    have ih := scanForest_entries ig p ts
    by_cases hn : n ∈ ig <;>
      simp [scanForest, scanTree, entriesForest, entriesTree, hn, ih.1, ih.2]
  | p, FTree.symlink n tgt :: ts => by
    have ih := scanForest_entries ig p ts
    by_cases hn : n ∈ ig <;>
      simp [scanForest, scanTree, entriesForest, entriesTree, hn, ih.1, ih.2]
  | p, FTree.dir n m ch :: ts => by
    have ih := scanForest_entries ig p ts
    have ihc := scanForest_entries ig (goJoin p n) ch
    by_cases hn : n ∈ ig <;>
      simp [scanForest, scanTree, entriesForest, entriesTree, hn,
        ih.1, ih.2, ihc.1, ihc.2]

/-- No walked entry carries an ignored name. -/
theorem entriesForest_names (ig : List String) :
    ∀ (p : String) (f : List FTree), ∀ e ∈ entriesForest ig p f, e.name ∉ ig
  | p, [], e, he => by simp [entriesForest] at he
  | p, FTree.file n m c :: ts, e, he => by
    simp only [entriesForest, entriesTree, List.mem_append] at he
    rcases he with he | he
    · by_cases hn : n ∈ ig
      · rw [if_pos hn] at he
        simp at he
      · rw [if_neg hn] at he
        simp at he
        rw [he]
        exact hn
    · exact entriesForest_names ig p ts e he
  | p, FTree.symlink n tgt :: ts, e, he => by
    simp only [entriesForest, entriesTree, List.mem_append] at he
    rcases he with he | he
    · by_cases hn : n ∈ ig
      · rw [if_pos hn] at he
        simp at he
      · rw [if_neg hn] at he
        simp at he
        rw [he]
        exact hn
    · exact entriesForest_names ig p ts e he
  | p, FTree.dir n m ch :: ts, e, he => by
    simp only [entriesForest, entriesTree, List.mem_append] at he
    rcases he with he | he
    · by_cases hn : n ∈ ig
      · rw [if_pos hn] at he
        simp at he
      · rw [if_neg hn] at he
        simp only [List.mem_cons] at he
        rcases he with he | he
        · rw [he]
          exact hn
        · exact entriesForest_names ig (goJoin p n) ch e he
    · exact entriesForest_names ig p ts e he

/-- Claim C6: Ignore correctness of `Location.scan`: no walked entry (and
hence no index path, the index being exactly the walked entries' paths)
carries a base name matching an ignore pattern; an ignored directory is
pruned whole, contributing neither itself nor any descendant to index
or size; an ignored file removes only that single entry. -/
theorem scan_ignore_rules (ig : List String) (ppath : String) (f : List FTree) :
    (∀ e ∈ entriesForest ig ppath f, e.name ∉ ig)
      ∧ (scanForest ig ppath f).1 = (entriesForest ig ppath f).map WalkedEntry.path
      ∧ (∀ n m ch ts, n ∈ ig →
          scanForest ig ppath (FTree.dir n m ch :: ts) = scanForest ig ppath ts
            ∧ entriesForest ig ppath (FTree.dir n m ch :: ts)
                = entriesForest ig ppath ts)
      ∧ (∀ n m c ts, n ∈ ig →
          scanForest ig ppath (FTree.file n m c :: ts) = scanForest ig ppath ts
            ∧ entriesForest ig ppath (FTree.file n m c :: ts)
                = entriesForest ig ppath ts) := by
  refine ⟨entriesForest_names ig ppath f, (scanForest_entries ig ppath f).1, ?_, ?_⟩
  · intro n m ch ts hn
    constructor
    · simp [scanForest, scanTree, hn]
    · simp [entriesForest, entriesTree, hn]
  · intro n m c ts hn
    constructor
    · simp [scanForest, scanTree, hn]
    · simp [entriesForest, entriesTree, hn]

theorem scan_ignore_rules_witness :
    ("node_modules" : String) ∈ ["node_modules", ".git"]
      ∧ scanForest ["node_modules", ".git"] "/home/u/project"
          [FTree.dir "node_modules" 493 [FTree.file "index.js" 420 [1, 2]],
           FTree.file "a.txt" 420 [5]]
          = (["/home/u/project/a.txt"], 1) := by
  refine ⟨by decide, ?_⟩
  have h := (scan_ignore_rules ["node_modules", ".git"] "/home/u/project"
    []).2.2.1 "node_modules" 493 [FTree.file "index.js" 420 [1, 2]]
    [FTree.file "a.txt" 420 [5]] (by decide)
  rw [h.1]
  decide

/-- Claim C8: The accumulated `totalSize` of a scan equals the sum of the
sizes of exactly the included non-directory entries: directories
contribute zero (the walk adds `info.Size()` only when `!d.IsDir()`),
and ignored entries — absent from the walked entries — contribute
zero. -/
theorem scan_size_sums (ig : List String) (ppath : String) (f : List FTree) :
    (scanForest ig ppath f).2
        = ((entriesForest ig ppath f).map
            (fun e => if e.isDir then 0 else e.size)).sum
      ∧ (scanForest ig ppath f).1
          = (entriesForest ig ppath f).map WalkedEntry.path
      ∧ ∀ e ∈ entriesForest ig ppath f, e.name ∉ ig :=
  ⟨(scanForest_entries ig ppath f).2, (scanForest_entries ig ppath f).1,
   entriesForest_names ig ppath f⟩

theorem scan_size_sums_witness :
    (scanForest [".git"] "/r"
        [FTree.dir "d" 448 [FTree.file "f" 420 [1, 2, 3]],
         FTree.symlink "s" "d/f", FTree.dir ".git" 448 [FTree.file "big" 420 [9]]]).2
      = ((entriesForest [".git"] "/r"
          [FTree.dir "d" 448 [FTree.file "f" 420 [1, 2, 3]],
           FTree.symlink "s" "d/f", FTree.dir ".git" 448 [FTree.file "big" 420 [9]]]).map
          (fun e => if e.isDir then 0 else e.size)).sum :=
  (scan_size_sums [".git"] "/r"
    [FTree.dir "d" 448 [FTree.file "f" 420 [1, 2, 3]],
     FTree.symlink "s" "d/f", FTree.dir ".git" 448 [FTree.file "big" 420 [9]]]).1

/-- Claim C2, the code evaluated at the failing input: The location tree
holds a symlink node `link → a.txt`, yet backup emits only regular-file
headers — `writeEntryNoMessage` calls `os.Stat`, which follows the
link, so `link` is archived as a regular file holding the target's
bytes — and restore recreates `link` as a regular file, not a symlink
with the same target string.  The round-trip claim fails on symlinks. -/
theorem roundtrip_symlink_bug :
    (findNameT c2Root "link").map nodeKind = some tarTypeSymlink
      ∧ archiveHeaders "/home/u/loc" c2Root []
          = Except.ok [Header.mk "loc/a.txt" tarTypeReg 420 "" [104, 105],
                       Header.mk "loc/link" tarTypeReg 420 "" [104, 105]]
      ∧ extractArchive "/home/u/loc"
          [Header.mk "loc/a.txt" tarTypeReg 420 "" [104, 105],
           Header.mk "loc/link" tarTypeReg 420 "" [104, 105]] c2Fs0
          = (c2Fs1, none)
      ∧ fsLookup c2Fs1
          [['h', 'o', 'm', 'e'], ['u'], ['l', 'o', 'c'], ['l', 'i', 'n', 'k']]
          = some (FNode.file 420 [104, 105]) := by
  decide

/-- Claim C7, counterexample: A location with zero qualifying entries
yields an empty index and an empty archive, and restoring that archive
terminates without error — but it does not recreate the (empty) target
directory: extraction only creates paths named by headers, and the scan
excludes the root, so nothing at all is created. -/
theorem empty_restore_counterexample :
    scanForest ["node_modules"] "/tmp/out/proj" c7Root = ([], 0)
      ∧ archiveHeaders "/tmp/out/proj" c7Root ["node_modules"] = Except.ok []
      ∧ extractArchive "/tmp/out/proj" [] c7Fs0 = (c7Fs0, none)
      ∧ fsLookup c7Fs0 [['t', 'm', 'p'], ['o', 'u', 't'], ['p', 'r', 'o', 'j']]
          = none := by
  decide

/-- Claim C7, amended: Scanning a location whose entries are all ignored
(or absent) produces an empty index, hence an archive with no entries;
restoring that archive terminates without error and leaves the
filesystem exactly as it was — in particular the target directory
itself is not recreated. -/
theorem empty_scan_extract (ig : List String) (p : String) (f : List FTree)
    (h : ∀ t ∈ f, FTree.nameOf t ∈ ig) :
    scanForest ig p f = ([], 0)
      ∧ archiveHeaders p f ig = Except.ok []
      ∧ ∀ (target : String) (fs : Fs), extractArchive target [] fs = (fs, none) := by
  have h1 : scanForest ig p f = ([], 0) := by
    induction f with
    | nil => rfl
    | cons t ts ih =>
      have ht := h t (by simp)
      have hts := ih (fun x hx => h x (by simp [hx]))
      cases t <;> simp_all [scanForest, scanTree, FTree.nameOf]
  refine ⟨h1, ?_, fun target fs => rfl⟩
  simp [archiveHeaders, h1, writeAll]

theorem empty_scan_extract_witness :
    scanForest ["node_modules"] "/x" c7Root = ([], 0)
      ∧ archiveHeaders "/x" c7Root ["node_modules"] = Except.ok []
      ∧ extractArchive "/t" [] [] = ([], none) := by
  have h := empty_scan_extract ["node_modules"] "/x" c7Root (by decide)
  exact ⟨h.1, h.2.1, h.2.2 "/t" []⟩

example : pathComps (absString [['a'], ['b']]) = [['a'], ['b']] := by decide

example : clean "/a/b/../c//./d" = "/a/c/d" := by decide

example : clean "" = "." := by decide

example : clean "/" = "/" := by decide

example : clean "/../a" = "/a" := by decide

example : clean "a/.." = "." := by decide

example : clean "../a" = "../a" := by decide

example : goJoin "/home/u" "../evil" = "/home/evil" := by decide

example : goBase "/home/u/proj" = "proj" := by decide

example : goBase "/" = "/" := by decide

example : goDir "/home/u/proj" = "/home/u" := by decide

example : goDir "abc" = "." := by decide

example : strHasPrefix "/a/bc/d" "/a/b/" = false := by decide
